import Mathlib

/-!
Verification of the indexed storage engine in `src/indexAvl.js`
(gigachad-db-backend).

The development shallowly embeds the two layers of the engine:

* the order-statistic AVL tree `AvlIndexTree` (class `Node` carries `id`,
  `filePosition`, `height`, `size` and two children; rotations, insert,
  delete, point lookup, positional lookup, range, in-order serialization,
  bulk load), and
* the `GigaDb` engine on top of it (framed append-only log as a byte list,
  `insertUser`, `seed`, `deleteUser`, `findById`, `findByPage`,
  `rebuildIndex` over the UTF-8 decoded text of the log).

Keys are JavaScript strings, compared with the JavaScript `<` operator,
which is lexicographic on UTF-16 code units.  The tree layer is developed over
an arbitrary linearly ordered key type `K`; the engine instantiates `K`
with `List Nat` (UTF-16 code units) in lexicographic order.
-/

set_option linter.unusedSectionVars false
set_option maxRecDepth 4000

namespace GigaDb

/-- Mirror of the JS `Node` class: `left`, `id`, `filePosition`, `height`,
`size`, `right`.  `height` and `size` are stored fields, updated by the
code exactly where the JS source updates them. -/
inductive Avl (K : Type) where
  | nil : Avl K
  | node (left : Avl K) (id : K) (filePosition : Nat)
         (height : Nat) (size : Nat) (right : Avl K) : Avl K
deriving DecidableEq, Repr

namespace Avl

variable {K : Type} [LinearOrder K]

/-- `getHeight(n) { return n ? n.height : 0 }` -/
def getHeight : Avl K → Nat
  | nil => 0
  | node _ _ _ h _ _ => h

/-- `getSize(n) { return n ? n.size : 0 }` -/
def getSize : Avl K → Nat
  | nil => 0
  | node _ _ _ _ s _ => s

/-- `getBalance(n) { return n ? getHeight(n.left) - getHeight(n.right) : 0 }` -/
def getBalance : Avl K → Int
  | nil => 0
  | node l _ _ _ _ r => (getHeight l : Int) - (getHeight r : Int)

/-- Rebuild a node from children, recomputing the stored `height`
(`1 + max(getHeight(left), getHeight(right))`) and the stored `size`
(`updateSize`: `1 + getSize(left) + getSize(right)`), exactly as the JS
code does after every structural mutation. -/
def mkNode (l : Avl K) (i : K) (f : Nat) (r : Avl K) : Avl K :=
  node l i f (1 + max (getHeight l) (getHeight r)) (1 + getSize l + getSize r) r

/-- `rotateRight(y)`: the JS code reads `x = y.left`, `T2 = x.right`,
relinks, then recomputes `y.height`, `x.height` and both sizes. The
catch-all branch is unreachable in the uses below (the JS code would
throw on a null `y.left`). -/
def rotateRight : Avl K → Avl K
  | node (node a xi xf _ _ b) yi yf _ _ c => mkNode a xi xf (mkNode b yi yf c)
  | t => t

/-- `rotateLeft(x)`: symmetric to `rotateRight`. -/
def rotateLeft : Avl K → Avl K
  | node a xi xf _ _ (node b yi yf _ _ c) => mkNode (mkNode a xi xf b) yi yf c
  | t => t

/-- Replace the left child, keeping every other stored field (models the
JS assignment `node.left = ...`). -/
def setLeft : Avl K → Avl K → Avl K
  | node _ i f h s r, nl => node nl i f h s r
  | nil, _ => nil

/-- Replace the right child, keeping every other stored field (models the
JS assignment `node.right = ...`). -/
def setRight : Avl K → Avl K → Avl K
  | node l i f h s _, nr => node l i f h s nr
  | nil, _ => nil

/-- Tail of `_insert` after the recursive call: recompute `height` and
`size`, read the balance and apply one of the four rotation patterns,
selecting by comparing the inserted `id` with the child key, exactly as
lines 80-90 of the source.  When the balance is `2` the left child cannot
be null (its stored height is at least `2`), so the `nil` inner branches
are dead code. -/
def rebalanceIns (t : Avl K) (id : K) : Avl K :=
  match t with
  | nil => nil
  | node l ni nf _ _ r =>
    let t' := mkNode l ni nf r
    if getBalance t' > 1 then
      match l with
      | node _ li _ _ _ _ =>
        if id < li then rotateRight t'
        else if li < id then rotateRight (setLeft t' (rotateLeft l))
        else t'
      | nil => t'
    else if getBalance t' < -1 then
      match r with
      | node _ ri _ _ _ _ =>
        if ri < id then rotateLeft t'
        else if id < ri then rotateLeft (setRight t' (rotateRight r))
        else t'
      | nil => t'
    else t'

/-- `_insert(node, id, filePosition)`.  The `id === node.id` branch
assigns `filePosition` and returns early, leaving `height` and `size`
untouched. -/
def insertGo : Avl K → K → Nat → Avl K
  | nil, id, fp => node nil id fp 1 1 nil
  | node l ni nf h s r, id, fp =>
    if id < ni then rebalanceIns (node (insertGo l id fp) ni nf h s r) id
    else if ni < id then rebalanceIns (node l ni nf h s (insertGo r id fp)) id
    else node l ni fp h s r

/-- `insert(id, filePosition)` on the root. -/
def insertT (t : Avl K) (id : K) (fp : Nat) : Avl K :=
  insertGo t id fp

/-- `getMinValueNode(node)`: walk `left` links to the leftmost node and
return its `(id, filePosition)`.  The JS function receives a non-null
node; here it receives the fields of that node. -/
def leftmost : Avl K → K → Nat → K × Nat
  | nil, i, f => (i, f)
  | node ll li lf _ _ _, _, _ => leftmost ll li lf

/-- Number of nodes, used as the termination measure of `deleteGo`. -/
def nodes : Avl K → Nat
  | nil => 0
  | node l _ _ _ _ r => 1 + nodes l + nodes r

/-- Tail of `_delete` after the structural step: recompute `height` and
`size`, then apply the four rotation patterns of lines 140-143, selected
by the balance factor of the taller child. -/
def rebalanceDel : Avl K → Avl K
  | nil => nil
  | node l ni nf _ _ r =>
    let t' := mkNode l ni nf r
    if getBalance t' > 1 then
      if getBalance l ≥ 0 then rotateRight t'
      else rotateRight (setLeft t' (rotateLeft l))
    else if getBalance t' < -1 then
      if getBalance r ≤ 0 then rotateLeft t'
      else rotateLeft (setRight t' (rotateRight r))
    else t'

/-- `_delete(node, id)`.  When the victim has no child the function
returns null before the rebalancing tail; with one child the child
replaces the node and then runs through the tail; with two children the
in-order successor key and file position are copied in and the successor
is deleted from the right subtree. -/
def deleteGo : Avl K → K → Avl K
  | nil, _ => nil
  | node l ni nf h s r, id =>
    if id < ni then rebalanceDel (node (deleteGo l id) ni nf h s r)
    else if ni < id then rebalanceDel (node l ni nf h s (deleteGo r id))
    else
      match l, r with
      | nil, nil => nil
      | nil, node _ _ _ _ _ _ => rebalanceDel r
      | node _ _ _ _ _ _, nil => rebalanceDel l
      | node _ _ _ _ _ _, node ra rb rc _ _ _ =>
        let tmp := leftmost ra rb rc
        rebalanceDel (node l tmp.1 tmp.2 h s (deleteGo r tmp.1))

/-- `delete(id)` on the root. -/
def deleteT (t : Avl K) (id : K) : Avl K :=
  deleteGo t id

/-- `findFilePosition(id)`: iterative search, returning null when the key
is absent. -/
def findFilePosition : Avl K → K → Option Nat
  | nil, _ => none
  | node l ni nf _ _ r, id =>
    if id = ni then some nf
    else if id < ni then findFilePosition l id
    else findFilePosition r id

/-- `findNodeByIndex(node, index)`: order-statistic descent guided by the
stored size of the left child.  The JS index is a JavaScript number and
may be negative, so the index is an integer here. -/
def findNodeByIndex : Avl K → Int → Option (Avl K)
  | nil, _ => none
  | node l ni nf h s r, index =>
    if index < (getSize l : Int) then findNodeByIndex l index
    else if index = (getSize l : Int) then some (node l ni nf h s r)
    else findNodeByIndex r (index - (getSize l : Int) - 1)

/-- The `(id, pos)` pair pushed by `getRange` for a found node. -/
def rootPair : Avl K → Option (K × Nat)
  | nil => none
  | node _ i f _ _ _ => some (i, f)

/-- `getRange(offset, limit)`: `limit` successive `findNodeByIndex`
calls at `offset, offset+1, ...`, stopping at the first miss. -/
def getRange (root : Avl K) (offset : Int) : Nat → List (K × Nat)
  | 0 => []
  | n + 1 =>
    match findNodeByIndex root offset with
    | some (node _ i f _ _ _) => (i, f) :: getRange root (offset + 1) n
    | _ => []

/-- `toArray()`: in-order traversal producing `{id, filePosition}` pairs.
The JS source drives the traversal with an explicit stack; the result is
the in-order sequence written here recursively. -/
def toArray : Avl K → List (K × Nat)
  | nil => []
  | node l i f _ _ r => toArray l ++ (i, f) :: toArray r

/-- `toTree(list)`: reset the root and insert every pair in order. -/
def toTree (list : List (K × Nat)) : Avl K :=
  list.foldl (fun t p => insertT t p.1 p.2) nil

/-! ### Semantic invariants

`theight` and `tsize` are the true height and node count, ignoring the
stored fields.  `goodB` states that every stored `height` and `size`
field agrees with the truth, `balancedB` is the AVL balance invariant on
true heights, and `bstB` is the search-tree ordering invariant. -/

/-- True height of the tree (1 + max of children, 0 for null). -/
def theight : Avl K → Nat
  | nil => 0
  | node l _ _ _ _ r => 1 + max (theight l) (theight r)

/-- True number of nodes in the tree. -/
def tsize : Avl K → Nat
  | nil => 0
  | node l _ _ _ _ r => 1 + tsize l + tsize r

/-- Every stored `height` and `size` field equals the true value. -/
def goodB : Avl K → Bool
  | nil => true
  | node l _ _ h s r =>
    goodB l && goodB r && decide (h = 1 + max (theight l) (theight r))
      && decide (s = 1 + tsize l + tsize r)

/-- The AVL balance invariant on true heights. -/
def balancedB : Avl K → Bool
  | nil => true
  | node l _ _ _ _ r =>
    balancedB l && balancedB r && decide (theight l ≤ theight r + 1)
      && decide (theight r ≤ theight l + 1)

/-- Every key in the tree satisfies `p`. -/
def allB (p : K → Bool) : Avl K → Bool
  | nil => true
  | node l i _ _ _ r => p i && allB p l && allB p r

/-- Search-tree ordering: left keys strictly below, right keys strictly
above, recursively. -/
def bstB : Avl K → Bool
  | nil => true
  | node l i _ _ _ r =>
    allB (fun k => decide (k < i)) l && allB (fun k => decide (i < k)) r
      && bstB l && bstB r

/-- Full well-formedness: correct stored fields, balance, ordering. -/
def invB (t : Avl K) : Bool := goodB t && balancedB t && bstB t

/-- Sorted association-list model of `insert`: place `(id, fp)` at its
position in key order, replacing an equal key. -/
def linsert (id : K) (fp : Nat) : List (K × Nat) → List (K × Nat)
  | [] => [(id, fp)]
  | (k, g) :: rest =>
    if id < k then (id, fp) :: (k, g) :: rest
    else if k < id then (k, g) :: linsert id fp rest
    else (id, fp) :: rest

/-- Association-list model of `delete`: drop the first pair whose key is
`id`. -/
def lremove (id : K) : List (K × Nat) → List (K × Nat)
  | [] => []
  | (k, g) :: rest => if id = k then rest else (k, g) :: lremove id rest

/-! ### Basic lemmas about the invariants -/

theorem getHeight_eq {t : Avl K} (h : goodB t) : getHeight t = theight t := by
  cases t with
  | nil => rfl
  | node l i f hh s r =>
    simp only [goodB, Bool.and_eq_true, decide_eq_true_eq] at h
    simpa [getHeight, theight] using h.1.2

theorem getSize_eq {t : Avl K} (h : goodB t) : getSize t = tsize t := by
  cases t with
  | nil => rfl
  | node l i f hh s r =>
    simp only [goodB, Bool.and_eq_true, decide_eq_true_eq] at h
    simpa [getSize, tsize] using h.2

theorem goodB_node_iff {l r : Avl K} {i : K} {f h s : Nat} :
    goodB (node l i f h s r) = true ↔
      goodB l = true ∧ goodB r = true ∧
      h = 1 + max (theight l) (theight r) ∧ s = 1 + tsize l + tsize r := by
  simp [goodB, and_assoc]

theorem balancedB_node_iff {l r : Avl K} {i : K} {f h s : Nat} :
    balancedB (node l i f h s r) = true ↔
      balancedB l = true ∧ balancedB r = true ∧
      theight l ≤ theight r + 1 ∧ theight r ≤ theight l + 1 := by
  simp [balancedB, and_assoc]

theorem bstB_node_iff {l r : Avl K} {i : K} {f h s : Nat} :
    bstB (node l i f h s r) = true ↔
      allB (fun k => decide (k < i)) l = true ∧
      allB (fun k => decide (i < k)) r = true ∧
      bstB l = true ∧ bstB r = true := by
  simp [bstB, and_assoc]

theorem toArray_length (t : Avl K) : (toArray t).length = tsize t := by
  induction t with
  | nil => rfl
  | node l i f h s r ihl ihr => simp [toArray, tsize, ihl, ihr]; omega

theorem allB_iff {p : K → Bool} {t : Avl K} :
    allB p t = true ↔ ∀ e ∈ toArray t, p e.1 = true := by
  induction t with
  | nil => simp [allB, toArray]
  | node l i f h s r ihl ihr =>
    simp only [allB, Bool.and_eq_true, toArray, List.mem_append, List.mem_cons]
    rw [ihl, ihr]
    constructor
    · rintro ⟨⟨hi, hl⟩, hr⟩ e he
      rcases he with he | he | he
      · exact hl e he
      · subst he; exact hi
      · exact hr e he
    · intro hall
      exact ⟨⟨hall (i, f) (Or.inr (Or.inl rfl)), fun e he => hall e (Or.inl he)⟩,
        fun e he => hall e (Or.inr (Or.inr he))⟩

/-- The search-tree invariant is equivalent to the in-order list being
strictly sorted by key. -/
theorem bstB_iff_pairwise {t : Avl K} :
    bstB t = true ↔ (toArray t).Pairwise (fun a b => a.1 < b.1) := by
  induction t with
  | nil => simp [bstB, toArray]
  | node l i f h s r ihl ihr =>
    rw [bstB_node_iff, ihl, ihr]
    simp only [toArray, List.pairwise_append, List.pairwise_cons, allB_iff,
      List.mem_cons, decide_eq_true_eq]
    constructor
    · rintro ⟨hal, har, hl, hr⟩
      refine ⟨hl, ⟨fun e he => har e he, hr⟩, ?_⟩
      rintro a ha b hb
      rcases hb with rfl | hb
      · exact hal a ha
      · exact lt_trans (hal a ha) (har b hb)
    · rintro ⟨hl, ⟨hi, hr⟩, hcross⟩
      exact ⟨fun e he => hcross e he (i, f) (Or.inl rfl), fun e he => hi e he, hl, hr⟩

/-! ### Rotation lemmas -/

theorem theight_mkNode (l : Avl K) (i : K) (f : Nat) (r : Avl K) :
    theight (mkNode l i f r) = 1 + max (theight l) (theight r) := rfl

theorem tsize_mkNode (l : Avl K) (i : K) (f : Nat) (r : Avl K) :
    tsize (mkNode l i f r) = 1 + tsize l + tsize r := rfl

theorem toArray_mkNode (l : Avl K) (i : K) (f : Nat) (r : Avl K) :
    toArray (mkNode l i f r) = toArray l ++ (i, f) :: toArray r := rfl

theorem goodB_mkNode {l r : Avl K} {i : K} {f : Nat}
    (gl : goodB l = true) (gr : goodB r = true) : goodB (mkNode l i f r) = true := by
  simp [mkNode, goodB, gl, gr, getHeight_eq gl, getHeight_eq gr, getSize_eq gl, getSize_eq gr]

theorem balancedB_mkNode {l r : Avl K} {i : K} {f : Nat}
    (bl : balancedB l = true) (br : balancedB r = true)
    (h1 : theight l ≤ theight r + 1) (h2 : theight r ≤ theight l + 1) :
    balancedB (mkNode l i f r) = true := by
  simp [mkNode, balancedB, bl, br, h1, h2]

theorem mkNode_eq_self {l r : Avl K} {i : K} {f h s : Nat}
    (g : goodB (node l i f h s r) = true) : mkNode l i f r = node l i f h s r := by
  rcases goodB_node_iff.mp g with ⟨gl, gr, hh, hs⟩
  simp [mkNode, getHeight_eq gl, getHeight_eq gr, getSize_eq gl, getSize_eq gr, hh, hs]

/-- Definitional reduction of a right rotation applied to a freshly
recomputed node. -/
theorem rotR_mk (a : Avl K) (xi : K) (xf : Nat) (b : Avl K) (yi : K) (yf : Nat)
    (c : Avl K) (h1 s1 : Nat) :
    rotateRight (mkNode (node a xi xf h1 s1 b) yi yf c)
      = mkNode a xi xf (mkNode b yi yf c) := rfl

/-- Definitional reduction of a left rotation applied to a freshly
recomputed node. -/
theorem rotL_mk (a : Avl K) (xi : K) (xf : Nat) (b : Avl K) (yi : K) (yf : Nat)
    (c : Avl K) (h2 s2 : Nat) :
    rotateLeft (mkNode a xi xf (node b yi yf h2 s2 c))
      = mkNode (mkNode a xi xf b) yi yf c := rfl

/-- Definitional reduction of the left-right double rotation, written
exactly as the source performs it. -/
theorem rotLR_mk (a : Avl K) (lk : K) (lf : Nat) (b1 : Avl K) (bk : K) (bf : Nat)
    (b2 : Avl K) (ni : K) (nf : Nat) (c : Avl K) (h1 s1 h3 s3 : Nat) :
    rotateRight (setLeft (mkNode (node a lk lf h1 s1 (node b1 bk bf h3 s3 b2)) ni nf c)
        (rotateLeft (node a lk lf h1 s1 (node b1 bk bf h3 s3 b2))))
      = mkNode (mkNode a lk lf b1) bk bf (mkNode b2 ni nf c) := rfl

/-- Definitional reduction of the right-left double rotation, written
exactly as the source performs it. -/
theorem rotRL_mk (a : Avl K) (ni : K) (nf : Nat) (b1 : Avl K) (bk : K) (bf : Nat)
    (b2 : Avl K) (rk : K) (rf : Nat) (c : Avl K) (h1 s1 h3 s3 : Nat) :
    rotateLeft (setRight (mkNode a ni nf (node (node b1 bk bf h3 s3 b2) rk rf h1 s1 c))
        (rotateRight (node (node b1 bk bf h3 s3 b2) rk rf h1 s1 c)))
      = mkNode (mkNode a ni nf b1) bk bf (mkNode b2 rk rf c) := rfl

/-- Result of a single right rotation: the outer child is one taller
than the far subtree, the inner child within one of it.  Covers the LL
case of insertion (inner equal to far) and of deletion (either). -/
theorem spec_LL {a b c : Avl K} {x y : K} {u v : Nat}
    (ga : goodB a = true) (gb : goodB b = true) (gc : goodB c = true)
    (ba : balancedB a = true) (bb : balancedB b = true) (bc : balancedB c = true)
    (hac : theight a = theight c + 1)
    (hbl : theight c ≤ theight b) (hbu : theight b ≤ theight c + 1) :
    goodB (mkNode a x u (mkNode b y v c)) = true ∧
    balancedB (mkNode a x u (mkNode b y v c)) = true ∧
    toArray (mkNode a x u (mkNode b y v c))
      = toArray a ++ (x, u) :: (toArray b ++ (y, v) :: toArray c) ∧
    theight (mkNode a x u (mkNode b y v c))
      = theight c + 2 + (theight b - theight c) := by
  refine ⟨goodB_mkNode ga (goodB_mkNode gb gc), ?_, ?_, ?_⟩
  · refine balancedB_mkNode ba (balancedB_mkNode bb bc hbu (le_trans hbl (Nat.le_succ _))) ?_ ?_ <;>
      (simp only [theight_mkNode]; omega)
  · simp [toArray_mkNode]
  · simp only [theight_mkNode]; omega

/-- Result of a single left rotation; mirror image of `spec_LL`. -/
theorem spec_RR {a b c : Avl K} {x y : K} {u v : Nat}
    (ga : goodB a = true) (gb : goodB b = true) (gc : goodB c = true)
    (ba : balancedB a = true) (bb : balancedB b = true) (bc : balancedB c = true)
    (hac : theight c = theight a + 1)
    (hbl : theight a ≤ theight b) (hbu : theight b ≤ theight a + 1) :
    goodB (mkNode (mkNode a x u b) y v c) = true ∧
    balancedB (mkNode (mkNode a x u b) y v c) = true ∧
    toArray (mkNode (mkNode a x u b) y v c)
      = toArray a ++ (x, u) :: (toArray b ++ (y, v) :: toArray c) ∧
    theight (mkNode (mkNode a x u b) y v c)
      = theight a + 2 + (theight b - theight a) := by
  refine ⟨goodB_mkNode (goodB_mkNode ga gb) gc, ?_, ?_, ?_⟩
  · refine balancedB_mkNode (balancedB_mkNode ba bb (le_trans hbl (Nat.le_succ _)) hbu) bc ?_ ?_ <;>
      (simp only [theight_mkNode]; omega)
  · simp [toArray_mkNode]
  · simp only [theight_mkNode]; omega

/-- Result of either double rotation: the two outer subtrees have equal
height and the two middle subtrees reach at most that height, one of
them exactly. -/
theorem spec_DD {a b1 b2 c : Avl K} {x y z : K} {u v w : Nat}
    (ga : goodB a = true) (gb1 : goodB b1 = true) (gb2 : goodB b2 = true)
    (gc : goodB c = true)
    (ba : balancedB a = true) (bb1 : balancedB b1 = true) (bb2 : balancedB b2 = true)
    (bc : balancedB c = true)
    (hac : theight a = theight c)
    (hmax : max (theight b1) (theight b2) = theight c)
    (hd1 : theight b1 ≤ theight b2 + 1) (hd2 : theight b2 ≤ theight b1 + 1) :
    goodB (mkNode (mkNode a x u b1) y v (mkNode b2 z w c)) = true ∧
    balancedB (mkNode (mkNode a x u b1) y v (mkNode b2 z w c)) = true ∧
    toArray (mkNode (mkNode a x u b1) y v (mkNode b2 z w c))
      = toArray a ++ (x, u) :: (toArray b1 ++ (y, v) :: (toArray b2 ++ (z, w) :: toArray c)) ∧
    theight (mkNode (mkNode a x u b1) y v (mkNode b2 z w c))
      = theight c + 2 := by
  have hb1 : theight b1 ≤ theight c := le_trans (Nat.le_max_left _ _) (le_of_eq hmax)
  have hb2 : theight b2 ≤ theight c := le_trans (Nat.le_max_right _ _) (le_of_eq hmax)
  refine ⟨goodB_mkNode (goodB_mkNode ga gb1) (goodB_mkNode gb2 gc), ?_, ?_, ?_⟩
  · refine balancedB_mkNode
      (balancedB_mkNode ba bb1 ?_ ?_) (balancedB_mkNode bb2 bc ?_ ?_) ?_ ?_ <;>
      ((try simp only [theight_mkNode]); omega)
  · simp [toArray_mkNode]
  · simp only [theight_mkNode]; omega


/-! ### Sorted association-list lemmas -/

/-- Association-list lookup, the model of `findFilePosition`. -/
def lookupA (id : K) : List (K × Nat) → Option Nat
  | [] => none
  | (k, g) :: rest => if id = k then some g else lookupA id rest

theorem linsert_append_left {id k : K} {fp g : Nat} (h : id < k)
    (xs ys : List (K × Nat)) :
    linsert id fp (xs ++ (k, g) :: ys) = linsert id fp xs ++ (k, g) :: ys := by
  induction xs with
  | nil => simp [linsert, h]
  | cons e xs ih =>
    obtain ⟨k', g'⟩ := e
    rcases lt_trichotomy id k' with h1 | h1 | h1
    · simp [linsert, h1]
    · subst h1; simp [linsert, lt_irrefl]
    · simp [linsert, h1, not_lt_of_gt h1, ih]

theorem linsert_append_right {id k : K} {fp g : Nat} (hk : k < id)
    (xs ys : List (K × Nat)) (hxs : ∀ e ∈ xs, e.1 < id) :
    linsert id fp (xs ++ (k, g) :: ys) = xs ++ (k, g) :: linsert id fp ys := by
  induction xs with
  | nil => simp [linsert, hk, not_lt_of_gt hk]
  | cons e xs ih =>
    obtain ⟨k', g'⟩ := e
    have h1 : k' < id := hxs (k', g') (List.mem_cons_self _ _)
    simp only [List.cons_append, linsert, if_neg (not_lt_of_gt h1), if_pos h1,
      List.append_eq]
    rw [ih (fun e he => hxs e (List.mem_cons_of_mem _ he))]

theorem linsert_append_eqKey {id : K} {fp g : Nat} (xs ys : List (K × Nat))
    (hxs : ∀ e ∈ xs, e.1 < id) :
    linsert id fp (xs ++ (id, g) :: ys) = xs ++ (id, fp) :: ys := by
  induction xs with
  | nil => simp [linsert, lt_irrefl]
  | cons e xs ih =>
    obtain ⟨k', g'⟩ := e
    have h1 : k' < id := hxs (k', g') (List.mem_cons_self _ _)
    simp only [List.cons_append, linsert, if_neg (not_lt_of_gt h1), if_pos h1,
      List.append_eq]
    rw [ih (fun e he => hxs e (List.mem_cons_of_mem _ he))]

theorem linsert_all_lt {id : K} {fp : Nat} (xs : List (K × Nat))
    (hxs : ∀ e ∈ xs, e.1 < id) :
    linsert id fp xs = xs ++ [(id, fp)] := by
  induction xs with
  | nil => rfl
  | cons e xs ih =>
    obtain ⟨k', g'⟩ := e
    have h1 : k' < id := hxs (k', g') (List.mem_cons_self _ _)
    simp only [linsert, if_neg (not_lt_of_gt h1), if_pos h1, List.cons_append]
    rw [ih (fun e he => hxs e (List.mem_cons_of_mem _ he))]

theorem mem_linsert {id : K} {fp : Nat} {xs : List (K × Nat)} {e : K × Nat}
    (h : e ∈ linsert id fp xs) : e ∈ xs ∨ e = (id, fp) := by
  induction xs with
  | nil => simp [linsert] at h; simp [h]
  | cons p xs ih =>
    obtain ⟨k', g'⟩ := p
    by_cases h1 : id < k'
    · simp only [linsert, if_pos h1, List.mem_cons] at h
      rcases h with h | h | h
      · exact Or.inr h
      · exact Or.inl (by simp [h])
      · exact Or.inl (List.mem_cons_of_mem _ h)
    · by_cases h2 : k' < id
      · simp only [linsert, if_neg h1, if_pos h2, List.mem_cons] at h
        rcases h with h | h
        · exact Or.inl (by simp [h])
        · rcases ih h with h | h
          · exact Or.inl (List.mem_cons_of_mem _ h)
          · exact Or.inr h
      · simp only [linsert, if_neg h1, if_neg h2, List.mem_cons] at h
        rcases h with h | h
        · exact Or.inr h
        · exact Or.inl (List.mem_cons_of_mem _ h)

theorem pairwise_linsert {id : K} {fp : Nat} {xs : List (K × Nat)}
    (h : xs.Pairwise (fun a b => a.1 < b.1)) :
    (linsert id fp xs).Pairwise (fun a b => a.1 < b.1) := by
  induction xs with
  | nil => simp [linsert]
  | cons p xs ih =>
    obtain ⟨k', g'⟩ := p
    rw [List.pairwise_cons] at h
    obtain ⟨hk, hxs⟩ := h
    rcases lt_trichotomy id k' with h1 | h1 | h1
    · rw [linsert, if_pos h1, List.pairwise_cons]
      refine ⟨?_, List.Pairwise.cons hk hxs⟩
      intro e he
      rcases List.mem_cons.mp he with rfl | he
      · exact h1
      · exact lt_trans h1 (hk e he)
    · subst h1
      rw [linsert, if_neg (lt_irrefl _), if_neg (lt_irrefl _), List.pairwise_cons]
      exact ⟨hk, hxs⟩
    · rw [linsert, if_neg (not_lt_of_gt h1), if_pos h1, List.pairwise_cons]
      refine ⟨?_, ih hxs⟩
      intro e he
      rcases mem_linsert he with he | rfl
      · exact hk e he
      · exact h1

theorem lremove_sublist (id : K) (xs : List (K × Nat)) :
    (lremove id xs).Sublist xs := by
  induction xs with
  | nil => simp [lremove]
  | cons p xs ih =>
    obtain ⟨k', g'⟩ := p
    by_cases h1 : id = k'
    · rw [lremove, if_pos h1]
      exact (List.sublist_cons_self _ _)
    · rw [lremove, if_neg h1]
      exact List.Sublist.cons₂ _ ih

theorem mem_lremove {id : K} {xs : List (K × Nat)} {e : K × Nat}
    (h : e ∈ lremove id xs) : e ∈ xs :=
  (lremove_sublist id xs).mem h

theorem pairwise_lremove {id : K} {xs : List (K × Nat)}
    (h : xs.Pairwise (fun a b => a.1 < b.1)) :
    (lremove id xs).Pairwise (fun a b => a.1 < b.1) :=
  h.sublist (lremove_sublist id xs)

theorem lremove_of_notin {id : K} (xs : List (K × Nat))
    (hxs : ∀ e ∈ xs, e.1 ≠ id) : lremove id xs = xs := by
  induction xs with
  | nil => rfl
  | cons p xs ih =>
    obtain ⟨k', g'⟩ := p
    have h1 : k' ≠ id := hxs (k', g') (List.mem_cons_self _ _)
    rw [lremove, if_neg h1.symm,
      ih (fun e he => hxs e (List.mem_cons_of_mem _ he))]

theorem lremove_append_right {id k : K} {g : Nat} (hk : id ≠ k)
    (xs ys : List (K × Nat)) (hxs : ∀ e ∈ xs, e.1 ≠ id) :
    lremove id (xs ++ (k, g) :: ys) = xs ++ (k, g) :: lremove id ys := by
  induction xs with
  | nil => simp [lremove, hk]
  | cons p xs ih =>
    obtain ⟨k', g'⟩ := p
    have h1 : k' ≠ id := hxs (k', g') (List.mem_cons_self _ _)
    simp only [List.cons_append, lremove, if_neg h1.symm, List.append_eq]
    rw [ih (fun e he => hxs e (List.mem_cons_of_mem _ he))]

theorem lremove_append_left {id k : K} {g : Nat} (hk : id ≠ k)
    (xs ys : List (K × Nat)) (hys : ∀ e ∈ ys, e.1 ≠ id) :
    lremove id (xs ++ (k, g) :: ys) = lremove id xs ++ (k, g) :: ys := by
  induction xs with
  | nil => simp [lremove, hk, lremove_of_notin ys hys]
  | cons p xs ih =>
    obtain ⟨k', g'⟩ := p
    by_cases h1 : id = k'
    · simp [lremove, h1]
    · simp only [List.cons_append, lremove, if_neg h1, List.append_eq]
      rw [ih]

theorem lremove_append_eqKey {id : K} {g : Nat} (xs ys : List (K × Nat))
    (hxs : ∀ e ∈ xs, e.1 ≠ id) :
    lremove id (xs ++ (id, g) :: ys) = xs ++ ys := by
  induction xs with
  | nil => simp [lremove]
  | cons p xs ih =>
    obtain ⟨k', g'⟩ := p
    have h1 : k' ≠ id := hxs (k', g') (List.mem_cons_self _ _)
    simp only [List.cons_append, lremove, if_neg h1.symm, List.append_eq]
    rw [ih (fun e he => hxs e (List.mem_cons_of_mem _ he))]

theorem lookupA_eq_none_of {id : K} (xs : List (K × Nat))
    (hxs : ∀ e ∈ xs, e.1 ≠ id) : lookupA id xs = none := by
  induction xs with
  | nil => rfl
  | cons p xs ih =>
    obtain ⟨k', g'⟩ := p
    have h1 : k' ≠ id := hxs (k', g') (List.mem_cons_self _ _)
    rw [lookupA, if_neg h1.symm,
      ih (fun e he => hxs e (List.mem_cons_of_mem _ he))]

theorem lookupA_append_notin {id : K} (xs ys : List (K × Nat))
    (hxs : ∀ e ∈ xs, e.1 ≠ id) :
    lookupA id (xs ++ ys) = lookupA id ys := by
  induction xs with
  | nil => rfl
  | cons p xs ih =>
    obtain ⟨k', g'⟩ := p
    have h1 : k' ≠ id := hxs (k', g') (List.mem_cons_self _ _)
    rw [List.cons_append, lookupA, if_neg h1.symm,
      ih (fun e he => hxs e (List.mem_cons_of_mem _ he))]

theorem lookupA_append_right_none {id : K} (xs ys : List (K × Nat))
    (hys : ∀ e ∈ ys, e.1 ≠ id) :
    lookupA id (xs ++ ys) = lookupA id xs := by
  induction xs with
  | nil => exact lookupA_eq_none_of ys hys
  | cons p xs ih =>
    obtain ⟨k', g'⟩ := p
    by_cases h1 : id = k'
    · simp [lookupA, h1]
    · rw [List.cons_append, lookupA, if_neg h1, lookupA, if_neg h1, ih]

theorem lookupA_linsert_self (id : K) (fp : Nat) (xs : List (K × Nat)) :
    lookupA id (linsert id fp xs) = some fp := by
  induction xs with
  | nil => simp [linsert, lookupA]
  | cons p xs ih =>
    obtain ⟨k', g'⟩ := p
    rcases lt_trichotomy id k' with h1 | h1 | h1
    · simp [linsert, h1, lookupA]
    · subst h1; simp [linsert, lt_irrefl, lookupA]
    · simp only [linsert, if_neg (not_lt_of_gt h1), if_pos h1, lookupA,
        if_neg (ne_of_gt h1), ih]

theorem lookupA_linsert_other {id k : K} (hne : k ≠ id) (fp : Nat)
    (xs : List (K × Nat)) :
    lookupA k (linsert id fp xs) = lookupA k xs := by
  induction xs with
  | nil => simp [linsert, lookupA, hne]
  | cons p xs ih =>
    obtain ⟨k', g'⟩ := p
    rcases lt_trichotomy id k' with h1 | h1 | h1
    · simp [linsert, h1, lookupA, hne]
    · subst h1; simp [linsert, lt_irrefl, lookupA, hne]
    · simp only [linsert, if_neg (not_lt_of_gt h1), if_pos h1, lookupA, ih]

theorem lookupA_lremove_self {id : K} {xs : List (K × Nat)}
    (h : xs.Pairwise (fun a b => a.1 < b.1)) :
    lookupA id (lremove id xs) = none := by
  induction xs with
  | nil => rfl
  | cons p xs ih =>
    obtain ⟨k', g'⟩ := p
    rw [List.pairwise_cons] at h
    obtain ⟨hk, hxs⟩ := h
    by_cases h1 : id = k'
    · subst h1
      rw [lremove, if_pos rfl]
      exact lookupA_eq_none_of xs (fun e he => ne_of_gt (hk e he))
    · rw [lremove, if_neg h1, lookupA, if_neg h1]
      exact ih hxs

/-! ### Reduction lemmas for the insert rebalancing step -/

theorem getBalance_mkNode (l : Avl K) (i : K) (f : Nat) (r : Avl K) :
    getBalance (mkNode l i f r) = (getHeight l : Int) - getHeight r := rfl

theorem rebalanceIns_eq_mkNode {l r : Avl K} {i id : K} {f h s : Nat}
    (gl : goodB l = true) (gr : goodB r = true)
    (h1 : theight l ≤ theight r + 1) (h2 : theight r ≤ theight l + 1) :
    rebalanceIns (node l i f h s r) id = mkNode l i f r := by
  have c1 : ¬ (getBalance (mkNode l i f r) > 1) := by
    rw [getBalance_mkNode, getHeight_eq gl, getHeight_eq gr]; omega
  have c2 : ¬ (getBalance (mkNode l i f r) < -1) := by
    rw [getBalance_mkNode, getHeight_eq gl, getHeight_eq gr]; omega
  simp only [rebalanceIns, if_neg c1, if_neg c2]

theorem rebalanceIns_rotLL {la lb r : Avl K} {li i id : K} {lf f lh ls h s : Nat}
    (hgt : getBalance (mkNode (node la li lf lh ls lb) i f r) > 1)
    (hid : id < li) :
    rebalanceIns (node (node la li lf lh ls lb) i f h s r) id
      = rotateRight (mkNode (node la li lf lh ls lb) i f r) := by
  simp only [rebalanceIns, if_pos hgt, if_pos hid]

theorem rebalanceIns_rotLR {la lb r : Avl K} {li i id : K} {lf f lh ls h s : Nat}
    (hgt : getBalance (mkNode (node la li lf lh ls lb) i f r) > 1)
    (hid : li < id) :
    rebalanceIns (node (node la li lf lh ls lb) i f h s r) id
      = rotateRight (setLeft (mkNode (node la li lf lh ls lb) i f r)
          (rotateLeft (node la li lf lh ls lb))) := by
  simp only [rebalanceIns, if_pos hgt, if_neg (not_lt_of_gt hid), if_pos hid]

theorem rebalanceIns_rotRR {l ra rb : Avl K} {ri i id : K} {rf f rh rs h s : Nat}
    (hlt : getBalance (mkNode l i f (node ra ri rf rh rs rb)) < -1)
    (hid : ri < id) :
    rebalanceIns (node l i f h s (node ra ri rf rh rs rb)) id
      = rotateLeft (mkNode l i f (node ra ri rf rh rs rb)) := by
  have hng : ¬ (getBalance (mkNode l i f (node ra ri rf rh rs rb)) > 1) := by omega
  simp only [rebalanceIns, if_neg hng, if_pos hlt, if_pos hid]

theorem rebalanceIns_rotRL {l ra rb : Avl K} {ri i id : K} {rf f rh rs h s : Nat}
    (hlt : getBalance (mkNode l i f (node ra ri rf rh rs rb)) < -1)
    (hid : id < ri) :
    rebalanceIns (node l i f h s (node ra ri rf rh rs rb)) id
      = rotateLeft (setRight (mkNode l i f (node ra ri rf rh rs rb))
          (rotateRight (node ra ri rf rh rs rb))) := by
  have hng : ¬ (getBalance (mkNode l i f (node ra ri rf rh rs rb)) > 1) := by omega
  simp only [rebalanceIns, if_neg hng, if_pos hlt, if_neg (not_lt_of_gt hid), if_pos hid]

/-- Auxiliary predicate carried through the insertion induction: when the
insertion increases the height of a subtree, the subtree keeps its root
key and leans exactly towards the side the new key went to. -/
def growOk : Avl K → Avl K → K → Prop
  | node _ k _ _ _ _, node l' k' _ _ _ r', id =>
      k' = k ∧ ((id < k ∧ theight l' = theight r' + 1) ∨
                (k < id ∧ theight r' = theight l' + 1))
  | nil, _, _ => True
  | _, _, _ => False

/-- Master lemma for `_insert`: on a well-formed tree the insertion keeps
the stored fields correct, keeps the balance invariant, acts on the
in-order list as a sorted association-list insertion, and grows the
height by at most one (with the lean information of `growOk` when it
does). -/
theorem insertGo_spec (t : Avl K) (id : K) (fp : Nat)
    (g : goodB t = true) (b : balancedB t = true) (bs : bstB t = true) :
    goodB (insertGo t id fp) = true ∧
    balancedB (insertGo t id fp) = true ∧
    toArray (insertGo t id fp) = linsert id fp (toArray t) ∧
    (theight (insertGo t id fp) = theight t ∨
      (theight (insertGo t id fp) = theight t + 1 ∧ growOk t (insertGo t id fp) id)) := by
  induction t generalizing fp with
  | nil =>
    refine ⟨rfl, rfl, rfl, Or.inr ⟨rfl, trivial⟩⟩
  | node l ni nf h s r ihl ihr =>
    rcases goodB_node_iff.mp g with ⟨gl, gr, hh, hs⟩
    rcases balancedB_node_iff.mp b with ⟨bl, br, d1, d2⟩
    rcases bstB_node_iff.mp bs with ⟨al, ar, bsl, bsr⟩
    have hal : ∀ e ∈ toArray l, e.1 < ni := by
      intro e he; simpa using allB_iff.mp al e he
    have har : ∀ e ∈ toArray r, ni < e.1 := by
      intro e he; simpa using allB_iff.mp ar e he
    rcases lt_trichotomy id ni with hlt | heq | hgt
    · -- descend into the left subtree
      have e0 : insertGo (node l ni nf h s r) id fp
          = rebalanceIns (node (insertGo l id fp) ni nf h s r) id := by
        simp [insertGo, hlt]
      obtain ⟨gl', bl', tal', hht⟩ := ihl fp gl bl bsl
      have hup : theight (insertGo l id fp) ≤ theight l + 1 := by
        rcases hht with h1 | ⟨h1, _⟩ <;> omega
      have hlo : theight l ≤ theight (insertGo l id fp) := by
        rcases hht with h1 | ⟨h1, _⟩ <;> omega
      by_cases hb1 : (theight (insertGo l id fp) : Int) - theight r > 1
      · -- the left subtree got two taller than the right: a rotation fires
        have hl'r : theight (insertGo l id fp) = theight r + 2 := by omega
        have hLr : theight l = theight r + 1 := by omega
        have hplus : theight (insertGo l id fp) = theight l + 1 := by omega
        have hgOk : growOk l (insertGo l id fp) id := by
          rcases hht with h1 | ⟨h1, hg⟩
          · omega
          · exact hg
        have hbal : getBalance (mkNode (insertGo l id fp) ni nf r) > 1 := by
          rw [getBalance_mkNode, getHeight_eq gl', getHeight_eq gr]; omega
        cases l with
        | nil => simp [theight] at hLr
        | node la lk lfp lhh lss lb =>
          cases hl' : insertGo (node la lk lfp lhh lss lb) id fp with
          | nil => rw [hl'] at hgOk; exact absurd hgOk (by simp [growOk])
          | node l'a li l'f l'h l's l'b =>
            rw [hl'] at hgOk gl' bl' tal' hl'r hplus hbal e0
            obtain ⟨hkeq, hdir⟩ := hgOk
            rcases goodB_node_iff.mp gl' with ⟨ga', gb', hh', hs'⟩
            rcases balancedB_node_iff.mp bl' with ⟨ba', bb', da', db'⟩
            have htl' : theight (node l'a li l'f l'h l's l'b)
                = 1 + max (theight l'a) (theight l'b) := by simp [theight]
            rcases hdir with ⟨hidlt, hdif⟩ | ⟨hidgt, hdif⟩
            · -- LL: single right rotation
              rw [e0, rebalanceIns_rotLL hbal (hkeq ▸ hidlt), rotR_mk]
              have hac : theight l'a = theight r + 1 := by omega
              have hbv : theight l'b = theight r := by omega
              obtain ⟨sg, sb, sa, sh⟩ :=
                spec_LL (x := li) (u := l'f) (y := ni) (v := nf)
                  ga' gb' gr ba' bb' br hac hbv.ge (by omega)
              refine ⟨sg, sb, ?_, Or.inl ?_⟩
              · rw [sa]
                have tgt : toArray (node (node la lk lfp lhh lss lb) ni nf h s r)
                    = toArray (node la lk lfp lhh lss lb) ++ (ni, nf) :: toArray r := rfl
                rw [tgt, linsert_append_left hlt, ← tal']
                simp [toArray, List.append_assoc]
              · rw [sh]
                simp only [theight] at hLr ⊢
                omega
            · -- LR: double rotation
              cases l'b with
              | nil => simp [theight] at hdif
              | node b1 bk bf bh bs2 b2 =>
                rw [e0, rebalanceIns_rotLR hbal (hkeq ▸ hidgt), rotLR_mk]
                rcases goodB_node_iff.mp gb' with ⟨gb1, gb2, hhb, hsb⟩
                rcases balancedB_node_iff.mp bb' with ⟨bb1, bb2, db1, db2⟩
                have hac : theight l'a = theight r := by
                  simp only [theight] at hdif hl'r; omega
                have hmax : max (theight b1) (theight b2) = theight r := by
                  simp only [theight] at hdif hl'r; omega
                obtain ⟨sg, sb, sa, sh⟩ :=
                  spec_DD (x := li) (u := l'f) (y := bk) (v := bf) (z := ni) (w := nf)
                    ga' gb1 gb2 gr ba' bb1 bb2 br hac hmax db1 db2
                refine ⟨sg, sb, ?_, Or.inl ?_⟩
                · rw [sa]
                  have tgt : toArray (node (node la lk lfp lhh lss lb) ni nf h s r)
                      = toArray (node la lk lfp lhh lss lb) ++ (ni, nf) :: toArray r := rfl
                  rw [tgt, linsert_append_left hlt, ← tal']
                  simp [toArray, List.append_assoc]
                · rw [sh]
                  simp only [theight] at hLr ⊢
                  omega
      · by_cases hb2 : (theight (insertGo l id fp) : Int) - theight r < -1
        · exact absurd hb2 (by omega)
        · -- no rotation: heights stay within one
          rw [e0, rebalanceIns_eq_mkNode gl' gr (by omega) (by omega)]
          refine ⟨goodB_mkNode gl' gr,
            balancedB_mkNode bl' br (by omega) (by omega), ?_, ?_⟩
          · rw [toArray_mkNode, tal']
            have tgt : toArray (node l ni nf h s r)
                = toArray l ++ (ni, nf) :: toArray r := rfl
            rw [tgt, linsert_append_left hlt]
          · rw [theight_mkNode]
            rcases hht with hsame | ⟨hplus, hg⟩
            · left; simp only [theight]; omega
            · by_cases hmx : max (theight (insertGo l id fp)) (theight r)
                  = max (theight l) (theight r)
              · left; simp only [theight]; omega
              · right
                refine ⟨by simp only [theight]; omega, ?_⟩
                have hlr1 : theight (insertGo l id fp) = theight r + 1 := by omega
                exact ⟨rfl, Or.inl ⟨hlt, hlr1⟩⟩
    · -- equal key: only the stored file position changes
      subst heq
      have e0 : insertGo (node l id nf h s r) id fp = node l id fp h s r := by
        simp [insertGo, lt_irrefl]
      rw [e0]
      refine ⟨goodB_node_iff.mpr ⟨gl, gr, hh, hs⟩,
        balancedB_node_iff.mpr ⟨bl, br, d1, d2⟩, ?_, Or.inl rfl⟩
      show toArray l ++ (id, fp) :: toArray r
          = linsert id fp (toArray l ++ (id, nf) :: toArray r)
      rw [linsert_append_eqKey _ _ hal]
    · -- descend into the right subtree
      have e0 : insertGo (node l ni nf h s r) id fp
          = rebalanceIns (node l ni nf h s (insertGo r id fp)) id := by
        simp [insertGo, hgt, not_lt_of_gt hgt]
      obtain ⟨gr', br', tar', hht⟩ := ihr fp gr br bsr
      have halid : ∀ e ∈ toArray l, e.1 < id := fun e he => lt_trans (hal e he) hgt
      have hup : theight (insertGo r id fp) ≤ theight r + 1 := by
        rcases hht with h1 | ⟨h1, _⟩ <;> omega
      have hlo : theight r ≤ theight (insertGo r id fp) := by
        rcases hht with h1 | ⟨h1, _⟩ <;> omega
      by_cases hb1 : (theight l : Int) - theight (insertGo r id fp) < -1
      · -- the right subtree got two taller than the left: a rotation fires
        have hr'l : theight (insertGo r id fp) = theight l + 2 := by omega
        have hRl : theight r = theight l + 1 := by omega
        have hplus : theight (insertGo r id fp) = theight r + 1 := by omega
        have hgOk : growOk r (insertGo r id fp) id := by
          rcases hht with h1 | ⟨h1, hg⟩
          · omega
          · exact hg
        cases r with
        | nil => simp [theight] at hRl
        | node ra rk rfp rhh rss rb =>
          cases hr' : insertGo (node ra rk rfp rhh rss rb) id fp with
          | nil => rw [hr'] at hgOk; exact absurd hgOk (by simp [growOk])
          | node r'a ri r'f r'h r's r'b =>
            rw [hr'] at hgOk gr' br' tar' hr'l hplus e0
            have hbal : getBalance (mkNode l ni nf (node r'a ri r'f r'h r's r'b)) < -1 := by
              rw [getBalance_mkNode, getHeight_eq gl, getHeight_eq gr']; omega
            obtain ⟨hkeq, hdir⟩ := hgOk
            rcases goodB_node_iff.mp gr' with ⟨ga', gb', hh', hs'⟩
            rcases balancedB_node_iff.mp br' with ⟨ba', bb', da', db'⟩
            have htr' : theight (node r'a ri r'f r'h r's r'b)
                = 1 + max (theight r'a) (theight r'b) := by simp [theight]
            rcases hdir with ⟨hidlt, hdif⟩ | ⟨hidgt, hdif⟩
            · -- RL: double rotation
              cases r'a with
              | nil => simp [theight] at hdif
              | node b1 bk bf bh bs2 b2 =>
                rw [e0, rebalanceIns_rotRL hbal (hkeq ▸ hidlt), rotRL_mk]
                rcases goodB_node_iff.mp ga' with ⟨gb1, gb2, hhb, hsb⟩
                rcases balancedB_node_iff.mp ba' with ⟨bb1, bb2, db1, db2⟩
                have hac : theight l = theight r'b := by
                  simp only [theight] at hdif hr'l; omega
                have hmax : max (theight b1) (theight b2) = theight r'b := by
                  simp only [theight] at hdif hr'l; omega
                obtain ⟨sg, sb, sa, sh⟩ :=
                  spec_DD (x := ni) (u := nf) (y := bk) (v := bf) (z := ri) (w := r'f)
                    gl gb1 gb2 gb' bl bb1 bb2 bb' hac hmax db1 db2
                refine ⟨sg, sb, ?_, Or.inl ?_⟩
                · rw [sa]
                  have tgt : toArray (node l ni nf h s (node ra rk rfp rhh rss rb))
                      = toArray l ++ (ni, nf) :: toArray (node ra rk rfp rhh rss rb) := rfl
                  rw [tgt, linsert_append_right hgt _ _ halid, ← tar']
                  simp [toArray, List.append_assoc]
                · rw [sh]
                  simp only [theight] at hRl ⊢
                  omega
            · -- RR: single left rotation
              rw [e0, rebalanceIns_rotRR hbal (hkeq ▸ hidgt), rotL_mk]
              have hac : theight r'b = theight l + 1 := by omega
              have hbv : theight r'a = theight l := by omega
              obtain ⟨sg, sb, sa, sh⟩ :=
                spec_RR (x := ni) (u := nf) (y := ri) (v := r'f)
                  gl ga' gb' bl ba' bb' hac hbv.ge (by omega)
              refine ⟨sg, sb, ?_, Or.inl ?_⟩
              · rw [sa]
                have tgt : toArray (node l ni nf h s (node ra rk rfp rhh rss rb))
                    = toArray l ++ (ni, nf) :: toArray (node ra rk rfp rhh rss rb) := rfl
                rw [tgt, linsert_append_right hgt _ _ halid, ← tar']
                simp [toArray, List.append_assoc]
              · rw [sh]
                simp only [theight] at hRl ⊢
                omega
      · by_cases hb2 : (theight l : Int) - theight (insertGo r id fp) > 1
        · exact absurd hb2 (by omega)
        · -- no rotation
          rw [e0, rebalanceIns_eq_mkNode gl gr' (by omega) (by omega)]
          refine ⟨goodB_mkNode gl gr',
            balancedB_mkNode bl br' (by omega) (by omega), ?_, ?_⟩
          · rw [toArray_mkNode, tar']
            have tgt : toArray (node l ni nf h s r)
                = toArray l ++ (ni, nf) :: toArray r := rfl
            rw [tgt, linsert_append_right hgt _ _ halid]
          · rw [theight_mkNode]
            rcases hht with hsame | ⟨hplus, hg⟩
            · left; simp only [theight]; omega
            · by_cases hmx : max (theight l) (theight (insertGo r id fp))
                  = max (theight l) (theight r)
              · left; simp only [theight]; omega
              · right
                refine ⟨by simp only [theight]; omega, ?_⟩
                have hrl1 : theight (insertGo r id fp) = theight l + 1 := by omega
                exact ⟨rfl, Or.inr ⟨hgt, hrl1⟩⟩


/-! ### Reduction lemmas and master lemma for the delete rebalancing step -/

theorem getBalance_node_eq {la lb : Avl K} {lk : K} {lf lh ls : Nat}
    (g : goodB (node la lk lf lh ls lb) = true) :
    getBalance (node la lk lf lh ls lb) = (theight la : Int) - theight lb := by
  rcases goodB_node_iff.mp g with ⟨gla, glb, _, _⟩
  simp [getBalance, getHeight_eq gla, getHeight_eq glb]

theorem rebalanceDel_eq_mkNode {l r : Avl K} {i : K} {f h s : Nat}
    (gl : goodB l = true) (gr : goodB r = true)
    (h1 : theight l ≤ theight r + 1) (h2 : theight r ≤ theight l + 1) :
    rebalanceDel (node l i f h s r) = mkNode l i f r := by
  have c1 : ¬ (getBalance (mkNode l i f r) > 1) := by
    rw [getBalance_mkNode, getHeight_eq gl, getHeight_eq gr]; omega
  have c2 : ¬ (getBalance (mkNode l i f r) < -1) := by
    rw [getBalance_mkNode, getHeight_eq gl, getHeight_eq gr]; omega
  simp only [rebalanceDel, if_neg c1, if_neg c2]

theorem rebalanceDel_rotLL {l r : Avl K} {i : K} {f h s : Nat}
    (hgt : getBalance (mkNode l i f r) > 1) (hb : getBalance l ≥ 0) :
    rebalanceDel (node l i f h s r) = rotateRight (mkNode l i f r) := by
  simp only [rebalanceDel, if_pos hgt, if_pos hb]

theorem rebalanceDel_rotLR {l r : Avl K} {i : K} {f h s : Nat}
    (hgt : getBalance (mkNode l i f r) > 1) (hb : ¬ getBalance l ≥ 0) :
    rebalanceDel (node l i f h s r)
      = rotateRight (setLeft (mkNode l i f r) (rotateLeft l)) := by
  simp only [rebalanceDel, if_pos hgt, if_neg hb]

theorem rebalanceDel_rotRR {l r : Avl K} {i : K} {f h s : Nat}
    (hlt : getBalance (mkNode l i f r) < -1) (hb : getBalance r ≤ 0) :
    rebalanceDel (node l i f h s r) = rotateLeft (mkNode l i f r) := by
  have hng : ¬ (getBalance (mkNode l i f r) > 1) := by omega
  simp only [rebalanceDel, if_neg hng, if_pos hlt, if_pos hb]

theorem rebalanceDel_rotRL {l r : Avl K} {i : K} {f h s : Nat}
    (hlt : getBalance (mkNode l i f r) < -1) (hb : ¬ getBalance r ≤ 0) :
    rebalanceDel (node l i f h s r)
      = rotateLeft (setRight (mkNode l i f r) (rotateRight r)) := by
  have hng : ¬ (getBalance (mkNode l i f r) > 1) := by omega
  simp only [rebalanceDel, if_neg hng, if_pos hlt, if_neg hb]

/-- Master lemma for the deletion rebalancing tail: on well-formed
children whose heights differ by at most two it restores the invariants,
keeps the in-order list, loses at most one height from the recomputed
node, and loses none when the children were already within one. -/
theorem rebalanceDel_spec {l r : Avl K} {i : K} {f h s : Nat}
    (gl : goodB l = true) (gr : goodB r = true)
    (bl : balancedB l = true) (br : balancedB r = true)
    (hd1 : theight l ≤ theight r + 2) (hd2 : theight r ≤ theight l + 2) :
    goodB (rebalanceDel (node l i f h s r)) = true ∧
    balancedB (rebalanceDel (node l i f h s r)) = true ∧
    toArray (rebalanceDel (node l i f h s r)) = toArray l ++ (i, f) :: toArray r ∧
    (theight (rebalanceDel (node l i f h s r)) = 1 + max (theight l) (theight r) ∨
      theight (rebalanceDel (node l i f h s r)) + 1 = 1 + max (theight l) (theight r)) ∧
    (theight l ≤ theight r + 1 → theight r ≤ theight l + 1 →
      theight (rebalanceDel (node l i f h s r)) = 1 + max (theight l) (theight r)) := by
  by_cases c1 : theight l ≤ theight r + 1 ∧ theight r ≤ theight l + 1
  · rw [rebalanceDel_eq_mkNode gl gr c1.1 c1.2]
    exact ⟨goodB_mkNode gl gr, balancedB_mkNode bl br c1.1 c1.2,
      toArray_mkNode _ _ _ _, Or.inl (theight_mkNode _ _ _ _),
      fun _ _ => theight_mkNode _ _ _ _⟩
  · by_cases c2 : theight l = theight r + 2
    · -- the left child is two taller
      have hgt : getBalance (mkNode l i f r) > 1 := by
        rw [getBalance_mkNode, getHeight_eq gl, getHeight_eq gr]; omega
      cases l with
      | nil => exact absurd c2 (by simp [theight])
      | node la lk lf1 lh1 ls1 lb =>
        rcases goodB_node_iff.mp gl with ⟨gla, glb, hhl, hsl⟩
        rcases balancedB_node_iff.mp bl with ⟨bla, blb, dla, dlb⟩
        have hbalL : getBalance (node la lk lf1 lh1 ls1 lb)
            = (theight la : Int) - theight lb := getBalance_node_eq gl
        have hc2e : 1 + max (theight la) (theight lb) = theight r + 2 := by
          simpa [theight] using c2
        by_cases hb0 : getBalance (node la lk lf1 lh1 ls1 lb) ≥ 0
        · rw [rebalanceDel_rotLL hgt hb0, rotR_mk]
          have hge : theight lb ≤ theight la := by rw [hbalL] at hb0; omega
          have hac : theight la = theight r + 1 := by omega
          obtain ⟨sg, sb, sa, sh⟩ :=
            spec_LL (x := lk) (u := lf1) (y := i) (v := f)
              gla glb gr bla blb br hac (by omega) (by omega)
          refine ⟨sg, sb, ?_, ?_, ?_⟩
          · rw [sa]; simp [toArray, List.append_assoc]
          · rw [sh]; simp only [theight]; omega
          · intro hx _; exfalso; simp only [theight] at hx; omega
        · have hlt2 : theight lb = theight la + 1 := by rw [hbalL] at hb0; omega
          cases lb with
          | nil => exact absurd hlt2 (by simp [theight])
          | node b1 bk bf2 bh2 bs2 b2 =>
            rw [rebalanceDel_rotLR hgt hb0, rotLR_mk]
            rcases goodB_node_iff.mp glb with ⟨gb1, gb2, _, _⟩
            rcases balancedB_node_iff.mp blb with ⟨bb1, bb2, db1, db2⟩
            have hac : theight la = theight r := by
              simp only [theight] at hc2e hlt2; omega
            have hmax : max (theight b1) (theight b2) = theight r := by
              simp only [theight] at hc2e hlt2; omega
            obtain ⟨sg, sb, sa, sh⟩ :=
              spec_DD (x := lk) (u := lf1) (y := bk) (v := bf2) (z := i) (w := f)
                gla gb1 gb2 gr bla bb1 bb2 br hac hmax db1 db2
            refine ⟨sg, sb, ?_, ?_, ?_⟩
            · rw [sa]; simp [toArray, List.append_assoc]
            · rw [sh]; simp only [theight]; omega
            · intro hx _; exfalso; simp only [theight] at hx; omega
    · -- the right child is two taller
      have c3 : theight r = theight l + 2 := by omega
      have hlt : getBalance (mkNode l i f r) < -1 := by
        rw [getBalance_mkNode, getHeight_eq gl, getHeight_eq gr]; omega
      cases r with
      | nil => exact absurd c3 (by simp [theight])
      | node ra rk rf1 rh1 rs1 rb =>
        rcases goodB_node_iff.mp gr with ⟨gra, grb, hhr, hsr⟩
        rcases balancedB_node_iff.mp br with ⟨bra, brb, dra, drb⟩
        have hbalR : getBalance (node ra rk rf1 rh1 rs1 rb)
            = (theight ra : Int) - theight rb := getBalance_node_eq gr
        have hc3e : 1 + max (theight ra) (theight rb) = theight l + 2 := by
          simpa [theight] using c3
        by_cases hb0 : getBalance (node ra rk rf1 rh1 rs1 rb) ≤ 0
        · rw [rebalanceDel_rotRR hlt hb0, rotL_mk]
          have hge : theight ra ≤ theight rb := by rw [hbalR] at hb0; omega
          have hac : theight rb = theight l + 1 := by omega
          obtain ⟨sg, sb, sa, sh⟩ :=
            spec_RR (x := i) (u := f) (y := rk) (v := rf1)
              gl gra grb bl bra brb hac (by omega) (by omega)
          refine ⟨sg, sb, ?_, ?_, ?_⟩
          · rw [sa]; simp [toArray, List.append_assoc]
          · rw [sh]; simp only [theight]; omega
          · intro _ hy; exfalso; simp only [theight] at hy; omega
        · have hlt2 : theight ra = theight rb + 1 := by rw [hbalR] at hb0; omega
          cases ra with
          | nil => exact absurd hlt2 (by simp [theight])
          | node b1 bk bf2 bh2 bs2 b2 =>
            rw [rebalanceDel_rotRL hlt hb0, rotRL_mk]
            rcases goodB_node_iff.mp gra with ⟨gb1, gb2, _, _⟩
            rcases balancedB_node_iff.mp bra with ⟨bb1, bb2, db1, db2⟩
            have hac : theight l = theight rb := by
              simp only [theight] at hc3e hlt2; omega
            have hmax : max (theight b1) (theight b2) = theight rb := by
              simp only [theight] at hc3e hlt2; omega
            obtain ⟨sg, sb, sa, sh⟩ :=
              spec_DD (x := i) (u := f) (y := bk) (v := bf2) (z := rk) (w := rf1)
                gl gb1 gb2 grb bl bb1 bb2 brb hac hmax db1 db2
            refine ⟨sg, sb, ?_, ?_, ?_⟩
            · rw [sa]; simp [toArray, List.append_assoc]
            · rw [sh]; simp only [theight]; omega
            · intro _ hy; exfalso; simp only [theight] at hy; omega

/-- `getMinValueNode` returns the head of the in-order enumeration. -/
theorem leftmost_cons (l : Avl K) (i : K) (f : Nat) (rest : List (K × Nat)) :
    ∃ tl, toArray l ++ (i, f) :: rest = leftmost l i f :: tl := by
  induction l generalizing i f rest with
  | nil => exact ⟨rest, rfl⟩
  | node ll li lf h0 s0 lr ihl _ =>
    obtain ⟨tl, htl⟩ := ihl li lf (toArray lr ++ (i, f) :: rest)
    refine ⟨tl, ?_⟩
    show (toArray ll ++ (li, lf) :: toArray lr) ++ (i, f) :: rest
        = leftmost ll li lf :: tl
    rw [List.append_assoc, List.cons_append]
    exact htl


/-- Master lemma for `_delete`: on a well-formed tree the deletion keeps
the stored fields correct, keeps the balance invariant, acts on the
in-order list as an association-list removal, and lowers the height by
at most one. -/
theorem deleteGo_spec (t : Avl K) (id : K)
    (g : goodB t = true) (b : balancedB t = true) (bs : bstB t = true) :
    goodB (deleteGo t id) = true ∧
    balancedB (deleteGo t id) = true ∧
    toArray (deleteGo t id) = lremove id (toArray t) ∧
    (theight (deleteGo t id) = theight t ∨ theight (deleteGo t id) + 1 = theight t) := by
  induction t generalizing id with
  | nil => exact ⟨rfl, rfl, rfl, Or.inl rfl⟩
  | node l ni nf h s r ihl ihr =>
    rcases goodB_node_iff.mp g with ⟨gl, gr, hh, hs⟩
    rcases balancedB_node_iff.mp b with ⟨bl, br, d1, d2⟩
    rcases bstB_node_iff.mp bs with ⟨al, ar, bsl, bsr⟩
    have hal : ∀ e ∈ toArray l, e.1 < ni := fun e he => by
      simpa using allB_iff.mp al e he
    have har : ∀ e ∈ toArray r, ni < e.1 := fun e he => by
      simpa using allB_iff.mp ar e he
    rcases lt_trichotomy id ni with hlt | heq | hgt
    · -- descend into the left subtree
      have e0 : deleteGo (node l ni nf h s r) id
          = rebalanceDel (node (deleteGo l id) ni nf h s r) := by
        simp [deleteGo, hlt]
      obtain ⟨gl', bl', tal', hht⟩ := ihl id gl bl bsl
      have hup : theight (deleteGo l id) ≤ theight l := by
        rcases hht with e | e <;> omega
      have hlo : theight l ≤ theight (deleteGo l id) + 1 := by
        rcases hht with e | e <;> omega
      obtain ⟨sg, sb, sa, sh4, sh5⟩ :=
        rebalanceDel_spec (i := ni) (f := nf) (h := h) (s := s)
          gl' gr bl' br (by omega) (by omega)
      rw [e0]
      have tgt : toArray (node l ni nf h s r) = toArray l ++ (ni, nf) :: toArray r := rfl
      have tgh : theight (node l ni nf h s r) = 1 + max (theight l) (theight r) := rfl
      refine ⟨sg, sb, ?_, ?_⟩
      · rw [sa, tal', tgt,
          lremove_append_left (ne_of_lt hlt) _ _
            (fun e he => ne_of_gt (lt_trans hlt (har e he)))]
      · rcases hht with h1 | h1
        · have e5 := sh5 (by omega) (by omega)
          rw [tgh]; omega
        · by_cases hdd : theight r ≤ theight (deleteGo l id) + 1
          · have e5 := sh5 (by omega) hdd
            rw [tgh]; omega
          · rw [tgh]
            rcases sh4 with e4 | e4 <;> omega
    · -- hit the key
      subst heq
      cases l with
      | nil =>
        cases r with
        | nil =>
          have e0 : deleteGo (node nil id nf h s nil) id = nil := by
            simp [deleteGo, lt_irrefl]
          rw [e0]
          refine ⟨rfl, rfl, ?_, Or.inr ?_⟩
          · simp [toArray, lremove]
          · simp [theight]
        | node ra rb2 rc rd re rf2 =>
          rcases goodB_node_iff.mp gr with ⟨gra, grb, hhr, hsr⟩
          rcases balancedB_node_iff.mp br with ⟨bra, brb, dra, drb⟩
          have e0 : deleteGo (node nil id nf h s (node ra rb2 rc rd re rf2)) id
              = rebalanceDel (node ra rb2 rc rd re rf2) := by
            simp [deleteGo, lt_irrefl]
          rw [e0, rebalanceDel_eq_mkNode gra grb dra drb, mkNode_eq_self gr]
          refine ⟨gr, br, ?_, Or.inr ?_⟩
          · show toArray (node ra rb2 rc rd re rf2)
                = lremove id (toArray nil ++ (id, nf) :: toArray (node ra rb2 rc rd re rf2))
            simp [toArray, lremove]
          · simp only [theight]; omega
      | node la lk lf1 lh1 ls1 lb =>
        cases r with
        | nil =>
          rcases goodB_node_iff.mp gl with ⟨gla, glb, hhl, hsl⟩
          rcases balancedB_node_iff.mp bl with ⟨bla, blb, dla, dlb⟩
          have e0 : deleteGo (node (node la lk lf1 lh1 ls1 lb) id nf h s nil) id
              = rebalanceDel (node la lk lf1 lh1 ls1 lb) := by
            simp [deleteGo, lt_irrefl]
          rw [e0, rebalanceDel_eq_mkNode gla glb dla dlb, mkNode_eq_self gl]
          refine ⟨gl, bl, ?_, Or.inr ?_⟩
          · show toArray (node la lk lf1 lh1 ls1 lb)
                = lremove id (toArray (node la lk lf1 lh1 ls1 lb) ++ (id, nf) :: [])
            rw [lremove_append_eqKey _ _ (fun e he => ne_of_lt (hal e he))]
            simp
          · simp only [theight]; omega
        | node ra rb2 rc rd re rf2 =>
          -- two children: copy in the in-order successor and delete it
          rcases hm : leftmost ra rb2 rc with ⟨m1, m2⟩
          have e0 : deleteGo (node (node la lk lf1 lh1 ls1 lb) id nf h s
                (node ra rb2 rc rd re rf2)) id
              = rebalanceDel (node (node la lk lf1 lh1 ls1 lb) m1 m2 h s
                  (deleteGo (node ra rb2 rc rd re rf2) m1)) := by
            simp [deleteGo, lt_irrefl, hm]
          obtain ⟨tl, htl⟩ := leftmost_cons ra rb2 rc (toArray rf2)
          rw [hm] at htl
          have hta : toArray (node ra rb2 rc rd re rf2) = (m1, m2) :: tl := htl
          have hmem : (m1, m2) ∈ toArray (node ra rb2 rc rd re rf2) := by
            rw [hta]; exact List.mem_cons_self _ _
          have hidm : id < m1 := har _ hmem
          obtain ⟨gr', br', tar', hht⟩ := ihr m1 gr br bsr
          have hup : theight (deleteGo (node ra rb2 rc rd re rf2) m1)
              ≤ theight (node ra rb2 rc rd re rf2) := by
            rcases hht with e | e <;> omega
          have hlo : theight (node ra rb2 rc rd re rf2)
              ≤ theight (deleteGo (node ra rb2 rc rd re rf2) m1) + 1 := by
            rcases hht with e | e <;> omega
          obtain ⟨sg, sb, sa, sh4, sh5⟩ :=
            rebalanceDel_spec (i := m1) (f := m2) (h := h) (s := s)
              gl gr' bl br' (by omega) (by omega)
          rw [e0]
          have tgt : toArray (node (node la lk lf1 lh1 ls1 lb) id nf h s
                (node ra rb2 rc rd re rf2))
              = toArray (node la lk lf1 lh1 ls1 lb) ++ (id, nf)
                  :: toArray (node ra rb2 rc rd re rf2) := rfl
          have tgh : theight (node (node la lk lf1 lh1 ls1 lb) id nf h s
                (node ra rb2 rc rd re rf2))
              = 1 + max (theight (node la lk lf1 lh1 ls1 lb))
                  (theight (node ra rb2 rc rd re rf2)) := rfl
          refine ⟨sg, sb, ?_, ?_⟩
          · rw [sa, tar', tgt,
              lremove_append_eqKey _ _ (fun e he => ne_of_lt (hal e he)), hta]
            simp [lremove]
          · rcases hht with h1 | h1
            · have e5 := sh5 (by omega) (by omega)
              rw [tgh]; omega
            · by_cases hdd : theight (node la lk lf1 lh1 ls1 lb)
                  ≤ theight (deleteGo (node ra rb2 rc rd re rf2) m1) + 1
              · have e5 := sh5 hdd (by omega)
                rw [tgh]; omega
              · rw [tgh]
                rcases sh4 with e4 | e4 <;> omega
    · -- descend into the right subtree
      have e0 : deleteGo (node l ni nf h s r) id
          = rebalanceDel (node l ni nf h s (deleteGo r id)) := by
        simp [deleteGo, not_lt_of_gt hgt, hgt]
      obtain ⟨gr', br', tar', hht⟩ := ihr id gr br bsr
      have hup : theight (deleteGo r id) ≤ theight r := by
        rcases hht with e | e <;> omega
      have hlo : theight r ≤ theight (deleteGo r id) + 1 := by
        rcases hht with e | e <;> omega
      obtain ⟨sg, sb, sa, sh4, sh5⟩ :=
        rebalanceDel_spec (i := ni) (f := nf) (h := h) (s := s)
          gl gr' bl br' (by omega) (by omega)
      rw [e0]
      have tgt : toArray (node l ni nf h s r) = toArray l ++ (ni, nf) :: toArray r := rfl
      have tgh : theight (node l ni nf h s r) = 1 + max (theight l) (theight r) := rfl
      refine ⟨sg, sb, ?_, ?_⟩
      · rw [sa, tar', tgt,
          lremove_append_right (ne_of_gt hgt) _ _
            (fun e he => ne_of_lt (lt_trans (hal e he) hgt))]
      · rcases hht with h1 | h1
        · have e5 := sh5 (by omega) (by omega)
          rw [tgh]; omega
        · by_cases hdd : theight l ≤ theight (deleteGo r id) + 1
          · have e5 := sh5 hdd (by omega)
            rw [tgh]; omega
          · rw [tgh]
            rcases sh4 with e4 | e4 <;> omega


/-! ### Derived preservation and correspondence lemmas -/

theorem bstB_insertGo {t : Avl K} (id : K) (fp : Nat)
    (g : goodB t = true) (b : balancedB t = true) (bs : bstB t = true) :
    bstB (insertGo t id fp) = true := by
  rw [bstB_iff_pairwise, (insertGo_spec t id fp g b bs).2.2.1]
  exact pairwise_linsert (bstB_iff_pairwise.mp bs)

theorem bstB_deleteGo {t : Avl K} (id : K)
    (g : goodB t = true) (b : balancedB t = true) (bs : bstB t = true) :
    bstB (deleteGo t id) = true := by
  rw [bstB_iff_pairwise, (deleteGo_spec t id g b bs).2.2.1]
  exact pairwise_lremove (bstB_iff_pairwise.mp bs)

theorem invB_iff {t : Avl K} :
    invB t = true ↔ goodB t = true ∧ balancedB t = true ∧ bstB t = true := by
  simp [invB, and_assoc]

theorem invB_insertT {t : Avl K} (id : K) (fp : Nat) (hi : invB t = true) :
    invB (insertT t id fp) = true := by
  rcases invB_iff.mp hi with ⟨g, b, bs⟩
  obtain ⟨g1, b1, _, _⟩ := insertGo_spec t id fp g b bs
  exact invB_iff.mpr ⟨g1, b1, bstB_insertGo id fp g b bs⟩

theorem invB_deleteT {t : Avl K} (id : K) (hi : invB t = true) :
    invB (deleteT t id) = true := by
  rcases invB_iff.mp hi with ⟨g, b, bs⟩
  obtain ⟨g1, b1, _, _⟩ := deleteGo_spec t id g b bs
  exact invB_iff.mpr ⟨g1, b1, bstB_deleteGo id g b bs⟩

theorem toArray_insertT {t : Avl K} (id : K) (fp : Nat) (hi : invB t = true) :
    toArray (insertT t id fp) = linsert id fp (toArray t) := by
  rcases invB_iff.mp hi with ⟨g, b, bs⟩
  exact (insertGo_spec t id fp g b bs).2.2.1

theorem toArray_deleteT {t : Avl K} (id : K) (hi : invB t = true) :
    toArray (deleteT t id) = lremove id (toArray t) := by
  rcases invB_iff.mp hi with ⟨g, b, bs⟩
  exact (deleteGo_spec t id g b bs).2.2.1

/-- On a search tree, `findFilePosition` computes the association-list
lookup over the in-order enumeration. -/
theorem findFilePosition_eq_lookupA (t : Avl K) (id : K) (bs : bstB t = true) :
    findFilePosition t id = lookupA id (toArray t) := by
  induction t with
  | nil => rfl
  | node l ni nf h s r ihl ihr =>
    rcases bstB_node_iff.mp bs with ⟨al, ar, bsl, bsr⟩
    have hal : ∀ e ∈ toArray l, e.1 < ni := fun e he => by
      simpa using allB_iff.mp al e he
    have har : ∀ e ∈ toArray r, ni < e.1 := fun e he => by
      simpa using allB_iff.mp ar e he
    show (if id = ni then some nf else if id < ni then findFilePosition l id
          else findFilePosition r id)
        = lookupA id (toArray l ++ (ni, nf) :: toArray r)
    rcases lt_trichotomy id ni with hlt | heq | hgt
    · rw [if_neg (ne_of_lt hlt), if_pos hlt, ihl bsl,
        lookupA_append_right_none]
      intro e he
      rcases List.mem_cons.mp he with rfl | he
      · exact ne_of_gt hlt
      · exact ne_of_gt (lt_trans hlt (har e he))
    · subst heq
      rw [if_pos rfl, lookupA_append_notin _ _ (fun e he => ne_of_lt (hal e he))]
      simp [lookupA]
    · rw [if_neg (ne_of_gt hgt), if_neg (not_lt_of_gt hgt), ihr bsr,
        lookupA_append_notin _ _ (fun e he => ne_of_lt (lt_trans (hal e he) hgt))]
      simp [lookupA, if_neg (ne_of_gt hgt)]

/-- A negative index always misses: the recursion always goes left and
falls off the tree. -/
theorem findNodeByIndex_neg (t : Avl K) (i : Int) (hi : i < 0) :
    findNodeByIndex t i = none := by
  induction t with
  | nil => rfl
  | node l ni nf h s r ihl ihr =>
    show (if i < (getSize l : Int) then findNodeByIndex l i
          else if i = (getSize l : Int) then some (node l ni nf h s r)
          else findNodeByIndex r (i - (getSize l : Int) - 1)) = none
    rw [if_pos (lt_of_lt_of_le hi (Int.ofNat_nonneg _))]
    exact ihl

theorem drop_eq_cons_of_get {α : Type} (xs : List α) (off : Nat) (e : α)
    (h : xs.get? off = some e) : xs.drop off = e :: xs.drop (off + 1) := by
  induction xs generalizing off with
  | nil => simp at h
  | cons x tail ih =>
    cases off with
    | zero => simp_all
    | succ m =>
      have h2 : tail.get? m = some e := h
      show tail.drop m = e :: tail.drop (m + 1)
      exact ih m h2

/-- Positional lookup on a size-correct tree returns exactly the entry
at that position of the in-order enumeration. -/
theorem findNodeByIndex_eq (t : Avl K) :
    ∀ (i : Nat), goodB t = true →
      (findNodeByIndex t (i : Int)).bind rootPair = (toArray t).get? i := by
  induction t with
  | nil => intro i g; simp [findNodeByIndex, toArray]
  | node l ni nf h s r ihl ihr =>
    intro i g
    rcases goodB_node_iff.mp g with ⟨gl, gr, hh, hs⟩
    have hsl : getSize l = tsize l := getSize_eq gl
    have hlen : (toArray l).length = tsize l := toArray_length l
    show (if (i : Int) < (getSize l : Int) then findNodeByIndex l i
          else if (i : Int) = (getSize l : Int) then some (node l ni nf h s r)
          else findNodeByIndex r ((i : Int) - (getSize l : Int) - 1)).bind rootPair
        = (toArray l ++ (ni, nf) :: toArray r).get? i
    rcases lt_trichotomy i (tsize l) with hlt | heq | hgt
    · rw [if_pos (by rw [hsl]; exact_mod_cast hlt), ihl i gl,
        List.get?_append (by rw [hlen]; exact hlt)]
    · subst heq
      rw [if_neg (by rw [hsl]; omega), if_pos (by rw [hsl])]
      rw [List.get?_append_right (by rw [hlen])]
      simp [rootPair, hlen]
    · rw [if_neg (by rw [hsl]; omega), if_neg (by rw [hsl]; omega)]
      have hcast : (i : Int) - (getSize l : Int) - 1 = ((i - tsize l - 1 : Nat) : Int) := by
        rw [hsl]; push_cast; omega
      rw [hcast, ihr _ gr, List.get?_append_right (by rw [hlen]; omega)]
      have h2 : i - (toArray l).length = (i - tsize l - 1) + 1 := by rw [hlen]; omega
      rw [h2, List.get?_cons_succ]

/-- `getRange` on a size-correct tree returns the contiguous slice of
the in-order enumeration. -/
theorem getRange_eq (t : Avl K) (g : goodB t = true) :
    ∀ (lim off : Nat), getRange t (off : Int) lim = ((toArray t).drop off).take lim := by
  intro lim
  induction lim with
  | zero => intro off; simp [getRange]
  | succ n ih =>
    intro off
    have he := findNodeByIndex_eq t off g
    show (match findNodeByIndex t (off : Int) with
      | some (node _ i f _ _ _) => (i, f) :: getRange t ((off : Int) + 1) n
      | _ => []) = ((toArray t).drop off).take (n + 1)
    cases hfn : findNodeByIndex t (off : Int) with
    | none =>
      rw [hfn] at he
      have hnil : (toArray t).drop off = [] := by
        rw [List.drop_eq_nil_iff_le]
        exact List.get?_eq_none.mp he.symm
      rw [hnil]
      rfl
    | some nd =>
      rw [hfn] at he
      cases nd with
      | nil =>
        have hnil : (toArray t).drop off = [] := by
          rw [List.drop_eq_nil_iff_le]
          exact List.get?_eq_none.mp he.symm
        rw [hnil]
        rfl
      | node a bkey c d e2 f2 =>
        have hsome : (toArray t).get? off = some (bkey, c) := he.symm
        rw [drop_eq_cons_of_get _ _ _ hsome]
        show (bkey, c) :: getRange t ((off : Int) + 1) n
            = (bkey, c) :: ((toArray t).drop (off + 1)).take n
        have hcast : (off : Int) + 1 = ((off + 1 : Nat) : Int) := by push_cast; ring
        rw [hcast, ih (off + 1)]

/-- Bulk-loading a strictly ascending list by repeated insertion yields a
well-formed tree with exactly that in-order enumeration. -/
theorem foldl_insert_sorted (xs : List (K × Nat)) :
    ∀ (t0 : Avl K) (ys : List (K × Nat)),
      goodB t0 = true → balancedB t0 = true → bstB t0 = true →
      toArray t0 = ys →
      (∀ p ∈ ys, ∀ q ∈ xs, p.1 < q.1) →
      xs.Pairwise (fun a b => a.1 < b.1) →
      goodB (xs.foldl (fun t p => insertT t p.1 p.2) t0) = true ∧
      balancedB (xs.foldl (fun t p => insertT t p.1 p.2) t0) = true ∧
      bstB (xs.foldl (fun t p => insertT t p.1 p.2) t0) = true ∧
      toArray (xs.foldl (fun t p => insertT t p.1 p.2) t0) = ys ++ xs := by
  induction xs with
  | nil =>
    intro t0 ys g b bs hta hb hp
    simpa using ⟨g, b, bs, hta⟩
  | cons x xs ih =>
    intro t0 ys g b bs hta hb hp
    obtain ⟨g1, b1, ta1, _⟩ := insertGo_spec t0 x.1 x.2 g b bs
    have bs1 : bstB (insertGo t0 x.1 x.2) = true := bstB_insertGo x.1 x.2 g b bs
    have hta1 : toArray (insertGo t0 x.1 x.2) = ys ++ [x] := by
      rw [ta1, hta, linsert_all_lt ys
        (fun p hp2 => hb p hp2 x (List.mem_cons_self _ _))]
    have hb1 : ∀ p ∈ ys ++ [x], ∀ q ∈ xs, p.1 < q.1 := by
      intro p hp2 q hq
      rcases List.mem_append.mp hp2 with hp2 | hp2
      · exact hb p hp2 q (List.mem_cons_of_mem _ hq)
      · rcases List.mem_singleton.mp hp2 with rfl
        exact (List.pairwise_cons.mp hp).1 q hq
    have hp1 := (List.pairwise_cons.mp hp).2
    have hrec := ih (insertGo t0 x.1 x.2) (ys ++ [x]) g1 b1 bs1 hta1 hb1 hp1
    have hfold : (x :: xs).foldl (fun t p => insertT t p.1 p.2) t0
        = xs.foldl (fun t p => insertT t p.1 p.2) (insertGo t0 x.1 x.2) := rfl
    rw [hfold]
    refine ⟨hrec.1, hrec.2.1, hrec.2.2.1, ?_⟩
    rw [hrec.2.2.2]
    simp

/-- Serialize-then-bulk-load rebuilds a tree with the same in-order
enumeration and full well-formedness. -/
theorem toTree_roundtrip (t : Avl K) (hi : invB t = true) :
    invB (toTree (toArray t)) = true ∧ toArray (toTree (toArray t)) = toArray t := by
  rcases invB_iff.mp hi with ⟨g, b, bs⟩
  have hp : (toArray t).Pairwise (fun a b => a.1 < b.1) := bstB_iff_pairwise.mp bs
  obtain ⟨g1, b1, bs1, hta⟩ := foldl_insert_sorted (toArray t) nil [] rfl rfl rfl rfl
    (by intro p hp2 q hq; simp at hp2) hp
  exact ⟨invB_iff.mpr ⟨g1, b1, bs1⟩, by simpa using hta⟩

/-! ### Update-in-place lemmas (insert on an existing key) -/

/-- Pure model of an update in place: walk the search path to the node
with key `k` and replace only its stored `filePosition` with `q`. -/
def updatePos : Avl K → K → Nat → Avl K
  | nil, _, _ => nil
  | node l i f h s r, k, q =>
    if k < i then node (updatePos l k q) i f h s r
    else if i < k then node l i f h s (updatePos r k q)
    else node l i q h s r

theorem updatePos_getHeight (t : Avl K) (k : K) (q : Nat) :
    getHeight (updatePos t k q) = getHeight t := by
  cases t with
  | nil => rfl
  | node l i f h s r =>
    simp only [updatePos]
    split <;> try rfl
    split <;> rfl

theorem updatePos_getSize (t : Avl K) (k : K) (q : Nat) :
    getSize (updatePos t k q) = getSize t := by
  cases t with
  | nil => rfl
  | node l i f h s r =>
    simp only [updatePos]
    split <;> try rfl
    split <;> rfl

theorem updatePos_theight (t : Avl K) (k : K) (q : Nat) :
    theight (updatePos t k q) = theight t := by
  induction t with
  | nil => rfl
  | node l i f h s r ihl ihr =>
    simp only [updatePos]
    split
    · simp [theight, ihl]
    · split <;> simp [theight, ihr]

theorem updatePos_tsize (t : Avl K) (k : K) (q : Nat) :
    tsize (updatePos t k q) = tsize t := by
  induction t with
  | nil => rfl
  | node l i f h s r ihl ihr =>
    simp only [updatePos]
    split
    · simp [tsize, ihl]
    · split <;> simp [tsize, ihr]

theorem updatePos_goodB (t : Avl K) (k : K) (q : Nat) :
    goodB (updatePos t k q) = goodB t := by
  induction t with
  | nil => rfl
  | node l i f h s r ihl ihr =>
    simp only [updatePos]
    split
    · simp [goodB, ihl, updatePos_theight, updatePos_tsize]
    · split
      · simp [goodB, ihr, updatePos_theight, updatePos_tsize]
      · simp [goodB]

/-- An insertion whose key is already present follows the search path
and performs exactly the in-place file-position update: no rotation, no
change to any other field. -/
theorem insertGo_existing (t : Avl K) (k : K) (q : Nat)
    (g : goodB t = true) (b : balancedB t = true)
    (hmem : findFilePosition t k ≠ none) :
    insertGo t k q = updatePos t k q := by
  induction t with
  | nil => simp [findFilePosition] at hmem
  | node l ni nf h s r ihl ihr =>
    rcases goodB_node_iff.mp g with ⟨gl, gr, hh, hs⟩
    rcases balancedB_node_iff.mp b with ⟨bl, br, d1, d2⟩
    rcases lt_trichotomy k ni with hlt | heq | hgt
    · have hm : findFilePosition l k ≠ none := by
        simpa [findFilePosition, ne_of_lt hlt, hlt] using hmem
      have e1 : insertGo l k q = updatePos l k q := ihl gl bl hm
      have e0 : insertGo (node l ni nf h s r) k q
          = rebalanceIns (node (updatePos l k q) ni nf h s r) k := by
        simp [insertGo, hlt, e1]
      have gu : goodB (updatePos l k q) = true := by
        rw [updatePos_goodB]; exact gl
      rw [e0, rebalanceIns_eq_mkNode gu gr (by rw [updatePos_theight]; omega)
        (by rw [updatePos_theight]; omega)]
      show node (updatePos l k q) ni nf
          (1 + max (getHeight (updatePos l k q)) (getHeight r))
          (1 + getSize (updatePos l k q) + getSize r) r
          = updatePos (node l ni nf h s r) k q
      rw [updatePos_getHeight, updatePos_getSize, getHeight_eq gl, getHeight_eq gr,
        getSize_eq gl, getSize_eq gr]
      simp [updatePos, hlt, hh, hs]
    · subst heq
      have e0 : insertGo (node l k nf h s r) k q = node l k q h s r := by
        simp [insertGo, lt_irrefl]
      rw [e0]
      simp [updatePos, lt_irrefl]
    · have hm : findFilePosition r k ≠ none := by
        simpa [findFilePosition, ne_of_gt hgt, not_lt_of_gt hgt] using hmem
      have e1 : insertGo r k q = updatePos r k q := ihr gr br hm
      have e0 : insertGo (node l ni nf h s r) k q
          = rebalanceIns (node l ni nf h s (updatePos r k q)) k := by
        simp [insertGo, hgt, not_lt_of_gt hgt, e1]
      have gu : goodB (updatePos r k q) = true := by
        rw [updatePos_goodB]; exact gr
      rw [e0, rebalanceIns_eq_mkNode gl gu (by rw [updatePos_theight]; omega)
        (by rw [updatePos_theight]; omega)]
      show node l ni nf
          (1 + max (getHeight l) (getHeight (updatePos r k q)))
          (1 + getSize l + getSize (updatePos r k q)) (updatePos r k q)
          = updatePos (node l ni nf h s r) k q
      rw [updatePos_getHeight, updatePos_getSize, getHeight_eq gl, getHeight_eq gr,
        getSize_eq gl, getSize_eq gr]
      simp [updatePos, hgt, not_lt_of_gt hgt, hh, hs]

/-- Point lookups of every other key are unchanged by an in-place
update. -/
theorem findFilePosition_updatePos_other (t : Avl K) (k k2 : K) (q : Nat)
    (hne : k2 ≠ k) :
    findFilePosition (updatePos t k q) k2 = findFilePosition t k2 := by
  induction t with
  | nil => rfl
  | node l ni nf h s r ihl ihr =>
    rcases lt_trichotomy k ni with hlt | heq | hgt
    · simp only [updatePos, if_pos hlt]
      show (if k2 = ni then some nf else if k2 < ni then
            findFilePosition (updatePos l k q) k2 else findFilePosition r k2)
          = (if k2 = ni then some nf else if k2 < ni then
            findFilePosition l k2 else findFilePosition r k2)
      split
      · rfl
      · split
        · exact ihl
        · rfl
    · subst heq
      simp only [updatePos, if_neg (lt_irrefl k), if_neg (lt_irrefl k)]
      show (if k2 = k then some q else if k2 < k then
            findFilePosition l k2 else findFilePosition r k2)
          = (if k2 = k then some nf else if k2 < k then
            findFilePosition l k2 else findFilePosition r k2)
      rw [if_neg hne, if_neg hne]
    · simp only [updatePos, if_neg (not_lt_of_gt hgt), if_pos hgt]
      show (if k2 = ni then some nf else if k2 < ni then
            findFilePosition l k2 else findFilePosition (updatePos r k q) k2)
          = (if k2 = ni then some nf else if k2 < ni then
            findFilePosition l k2 else findFilePosition r k2)
      split
      · rfl
      · split
        · rfl
        · exact ihr

/-- Looking up the updated key finds the new position, provided the key
was present. -/
theorem findFilePosition_updatePos_self (t : Avl K) (k : K) (q : Nat)
    (hmem : findFilePosition t k ≠ none) :
    findFilePosition (updatePos t k q) k = some q := by
  induction t with
  | nil => simp [findFilePosition] at hmem
  | node l ni nf h s r ihl ihr =>
    rcases lt_trichotomy k ni with hlt | heq | hgt
    · have hm : findFilePosition l k ≠ none := by
        simpa [findFilePosition, ne_of_lt hlt, hlt] using hmem
      simp only [updatePos, if_pos hlt]
      show (if k = ni then some nf else if k < ni then
            findFilePosition (updatePos l k q) k else findFilePosition r k)
          = some q
      rw [if_neg (ne_of_lt hlt), if_pos hlt]
      exact ihl hm
    · subst heq
      simp only [updatePos, if_neg (lt_irrefl k)]
      show (if k = k then some q else if k < k then
            findFilePosition l k else findFilePosition r k) = some q
      rw [if_pos rfl]
    · have hm : findFilePosition r k ≠ none := by
        simpa [findFilePosition, ne_of_gt hgt, not_lt_of_gt hgt] using hmem
      simp only [updatePos, if_neg (not_lt_of_gt hgt), if_pos hgt]
      show (if k = ni then some nf else if k < ni then
            findFilePosition l k else findFilePosition (updatePos r k q) k)
          = some q
      rw [if_neg (ne_of_gt hgt), if_neg (not_lt_of_gt hgt)]
      exact ihr hm


/-! ### Remaining tree-level helpers -/

theorem lookupA_mem {id : K} {xs : List (K × Nat)} {v : Nat}
    (h : lookupA id xs = some v) : (id, v) ∈ xs := by
  induction xs with
  | nil => simp [lookupA] at h
  | cons p xs ih =>
    obtain ⟨k, g⟩ := p
    by_cases h1 : id = k
    · subst h1
      rw [lookupA, if_pos rfl] at h
      cases h
      exact List.mem_cons_self _ _
    · rw [lookupA, if_neg h1] at h
      exact List.mem_cons_of_mem _ (ih h)

/-- `getRange` at a negative offset returns the empty list: the very
first positional lookup misses and the loop breaks. -/
theorem getRange_neg (t : Avl K) (off : Int) (lim : Nat) (h : off < 0) :
    getRange t off lim = [] := by
  cases lim with
  | zero => rfl
  | succ n => simp only [getRange, findNodeByIndex_neg t off h]

/-- One index operation, as the engine drives the tree. -/
inductive TreeOp (K : Type) where
  | ins (id : K) (fp : Nat) : TreeOp K
  | del (id : K) : TreeOp K

/-- Apply one index operation. -/
def applyTreeOp (t : Avl K) : TreeOp K → Avl K
  | TreeOp.ins id fp => insertT t id fp
  | TreeOp.del id => deleteT t id

/-- Run a sequence of index operations from the empty tree. -/
def runTreeOps (ops : List (TreeOp K)) : Avl K := ops.foldl applyTreeOp nil

theorem foldl_treeOps_inv (ops : List (TreeOp K)) :
    ∀ (t : Avl K), invB t = true → invB (ops.foldl applyTreeOp t) = true := by
  induction ops with
  | nil => intro t h; exact h
  | cons op ops ih =>
    intro t h
    show invB (ops.foldl applyTreeOp (applyTreeOp t op)) = true
    apply ih
    cases op with
    | ins id fp => exact invB_insertT id fp h
    | del id => exact invB_deleteT id h

theorem runTreeOps_inv (ops : List (TreeOp K)) : invB (runTreeOps ops) = true :=
  foldl_treeOps_inv ops nil rfl

/-- The stored `size` field is correct at every node. -/
def sizeOkB : Avl K → Bool
  | nil => true
  | node l _ _ _ s r => sizeOkB l && sizeOkB r && decide (s = 1 + tsize l + tsize r)

theorem sizeOkB_of_goodB {t : Avl K} (g : goodB t = true) : sizeOkB t = true := by
  induction t with
  | nil => rfl
  | node l i f h s r ihl ihr =>
    rcases goodB_node_iff.mp g with ⟨gl, gr, _, hs⟩
    simp [sizeOkB, ihl gl, ihr gr, hs]

/-- Erase every stored file position, keeping shape, keys, heights and
sizes: two trees with equal `stripPos` differ at most in file
positions. -/
def stripPos : Avl K → Avl K
  | nil => nil
  | node l i _ h s r => node (stripPos l) i 0 h s (stripPos r)

theorem stripPos_updatePos (t : Avl K) (k : K) (q : Nat) :
    stripPos (updatePos t k q) = stripPos t := by
  induction t with
  | nil => rfl
  | node l i f h s r ihl ihr =>
    simp only [updatePos]
    split
    · simp [stripPos, ihl]
    · split <;> simp [stripPos, ihr]

end Avl

/-! ## The `GigaDb` engine

JavaScript strings are sequences of UTF-16 code units; the JS `<` and
`>` comparisons used on `id` keys are lexicographic on those units, which
is the `List Nat` lexicographic order.  The log file is a byte list. -/

/-- JavaScript string: a sequence of UTF-16 code units. -/
abbrev JsStr := List Nat

open Avl

/-- Code units of an ASCII Lean string literal. -/
def lit (s : String) : JsStr := s.toList.map Char.toNat

/-- UTF-8 bytes of one code point. -/
def utf8Char (c : Nat) : List Nat :=
  if c < 0x80 then [c]
  else if c < 0x800 then [0xC0 + c / 0x40, 0x80 + c % 0x40]
  else if c < 0x10000 then
    [0xE0 + c / 0x1000, 0x80 + c / 0x40 % 0x40, 0x80 + c % 0x40]
  else
    [0xF0 + c / 0x40000, 0x80 + c / 0x1000 % 0x40, 0x80 + c / 0x40 % 0x40,
      0x80 + c % 0x40]

/-- `Buffer.from(str, "utf8")`: UTF-8 bytes of a code-unit sequence.
Surrogate pairs combine into one code point; a lone surrogate encodes as
U+FFFD, as the Node runtime does. -/
def utf8OfUnits : JsStr → List Nat
  | [] => []
  | [u] =>
    if 0xD800 ≤ u ∧ u ≤ 0xDFFF then utf8Char 0xFFFD
    else utf8Char u
  | u :: u2 :: rest2 =>
    if 0xD800 ≤ u ∧ u ≤ 0xDBFF then
      if 0xDC00 ≤ u2 ∧ u2 ≤ 0xDFFF then
        utf8Char (0x10000 + (u - 0xD800) * 0x400 + (u2 - 0xDC00)) ++ utf8OfUnits rest2
      else utf8Char 0xFFFD ++ utf8OfUnits (u2 :: rest2)
    else if 0xDC00 ≤ u ∧ u ≤ 0xDFFF then
      utf8Char 0xFFFD ++ utf8OfUnits (u2 :: rest2)
    else
      utf8Char u ++ utf8OfUnits (u2 :: rest2)

/-- Continuation byte test for the UTF-8 decoder. -/
def isCont (b : Nat) : Bool := 0x80 ≤ b && b ≤ 0xBF

/-- Second-byte lower bound of the WHATWG UTF-8 decoder. -/
def utf8Lo (b : Nat) : Nat := if b = 0xE0 then 0xA0 else if b = 0xF0 then 0x90 else 0x80

/-- Second-byte upper bound of the WHATWG UTF-8 decoder. -/
def utf8Hi (b : Nat) : Nat := if b = 0xED then 0x9F else if b = 0xF4 then 0x8F else 0xBF

/-- Bounds check for the byte following a 3- or 4-byte lead. -/
def okSecond (b b2 : Nat) : Bool := utf8Lo b ≤ b2 && b2 ≤ utf8Hi b

/-- WHATWG UTF-8 decode with U+FFFD replacement, as performed by
`fs.readFileSync(f, "utf-8")` in the Node runtime.  Produces code
points.  Invalid bytes and truncated sequences become one replacement
character per maximal subpart, with decoding resuming at the offending
byte. -/
def utf8Decode : List Nat → List Nat
  | [] => []
  | [b] =>
    if b < 0x80 then [b] else [0xFFFD]
  | [b, b2] =>
    if b < 0x80 then b :: utf8Decode [b2]
    else if b < 0xC2 then 0xFFFD :: utf8Decode [b2]
    else if b ≤ 0xDF then
      if isCont b2 then [(b - 0xC0) * 0x40 + (b2 - 0x80)]
      else 0xFFFD :: utf8Decode [b2]
    else if b ≤ 0xF4 then
      if okSecond b b2 then [0xFFFD]
      else 0xFFFD :: utf8Decode [b2]
    else 0xFFFD :: utf8Decode [b2]
  | [b, b2, b3] =>
    if b < 0x80 then b :: utf8Decode [b2, b3]
    else if b < 0xC2 then 0xFFFD :: utf8Decode [b2, b3]
    else if b ≤ 0xDF then
      if isCont b2 then ((b - 0xC0) * 0x40 + (b2 - 0x80)) :: utf8Decode [b3]
      else 0xFFFD :: utf8Decode [b2, b3]
    else if b ≤ 0xEF then
      if okSecond b b2 then
        if isCont b3 then [(b - 0xE0) * 0x1000 + (b2 - 0x80) * 0x40 + (b3 - 0x80)]
        else 0xFFFD :: utf8Decode [b3]
      else 0xFFFD :: utf8Decode [b2, b3]
    else if b ≤ 0xF4 then
      if okSecond b b2 then
        if isCont b3 then [0xFFFD]
        else 0xFFFD :: utf8Decode [b3]
      else 0xFFFD :: utf8Decode [b2, b3]
    else 0xFFFD :: utf8Decode [b2, b3]
  | b :: b2 :: b3 :: b4 :: bs =>
    if b < 0x80 then b :: utf8Decode (b2 :: b3 :: b4 :: bs)
    else if b < 0xC2 then 0xFFFD :: utf8Decode (b2 :: b3 :: b4 :: bs)
    else if b ≤ 0xDF then
      if isCont b2 then ((b - 0xC0) * 0x40 + (b2 - 0x80)) :: utf8Decode (b3 :: b4 :: bs)
      else 0xFFFD :: utf8Decode (b2 :: b3 :: b4 :: bs)
    else if b ≤ 0xEF then
      if okSecond b b2 then
        if isCont b3 then
          ((b - 0xE0) * 0x1000 + (b2 - 0x80) * 0x40 + (b3 - 0x80))
            :: utf8Decode (b4 :: bs)
        else 0xFFFD :: utf8Decode (b3 :: b4 :: bs)
      else 0xFFFD :: utf8Decode (b2 :: b3 :: b4 :: bs)
    else if b ≤ 0xF4 then
      if okSecond b b2 then
        if isCont b3 then
          if isCont b4 then
            ((b - 0xF0) * 0x40000 + (b2 - 0x80) * 0x1000 + (b3 - 0x80) * 0x40
              + (b4 - 0x80)) :: utf8Decode bs
          else 0xFFFD :: utf8Decode (b4 :: bs)
        else 0xFFFD :: utf8Decode (b3 :: b4 :: bs)
      else 0xFFFD :: utf8Decode (b2 :: b3 :: b4 :: bs)
    else 0xFFFD :: utf8Decode (b2 :: b3 :: b4 :: bs)

/-- UTF-16 code units of a code point. -/
def unitsOfCp (c : Nat) : List Nat :=
  if c < 0x10000 then [c]
  else [0xD800 + (c - 0x10000) / 0x400, 0xDC00 + (c - 0x10000) % 0x400]

/-- Code units of the JS string obtained by decoding bytes as UTF-8. -/
def unitsOfBytes (bs : List Nat) : JsStr :=
  (utf8Decode bs).bind unitsOfCp

/-- `str.split("\n")`; a trailing separator yields a trailing empty
piece, as in JavaScript. -/
def splitNl : JsStr → List JsStr
  | [] => [[]]
  | c :: rest =>
    if c = 10 then [] :: splitNl rest
    else
      match splitNl rest with
      | st :: ss => (c :: st) :: ss
      | [] => [[c]]

/-- The literal part of the rebuild regular expression. -/
def idPat : JsStr := lit "\"id\":\""

/-- One attempt of `/"id":"([^\"]+)"/` at the head of `s`: the literal
pattern, then one or more non-quote units captured, then a closing
quote. -/
def matchIdAt (s : JsStr) : Option JsStr :=
  if idPat.isPrefixOf s then
    let body := (s.drop idPat.length).takeWhile (fun c => c != 34)
    if 0 < body.length ∧ body.length < (s.drop idPat.length).length then some body
    else none
  else none

/-- First match of the rebuild regular expression in a line: attempts at
every start position, left to right. -/
def findId : JsStr → Option JsStr
  | [] => none
  | c :: rest =>
    match matchIdAt (c :: rest) with
    | some b => some b
    | none => findId rest

/-- Lowercase hexadecimal digit unit. -/
def hexDigit (n : Nat) : Nat := if n < 10 then 48 + n else 87 + n

/-- Four hex-digit units of a code unit, for `\u` escapes. -/
def hexUnits (c : Nat) : List Nat :=
  [hexDigit (c / 0x1000 % 16), hexDigit (c / 0x100 % 16), hexDigit (c / 16 % 16),
    hexDigit (c % 16)]

/-- The escape of one code unit under ECMAScript `QuoteJSONString`,
when it does not start a valid surrogate pair. -/
def jsonEsc (c : Nat) : List Nat :=
  if c = 34 then [92, 34]
  else if c = 92 then [92, 92]
  else if c = 8 then [92, 98]
  else if c = 9 then [92, 116]
  else if c = 10 then [92, 110]
  else if c = 12 then [92, 102]
  else if c = 13 then [92, 114]
  else if c < 32 then [92, 117, 48, 48, hexDigit (c / 16), hexDigit (c % 16)]
  else if 0xD800 ≤ c ∧ c ≤ 0xDFFF then 92 :: 117 :: hexUnits c
  else [c]

/-- ECMAScript `QuoteJSONString` over code units (without the outer
quotes): keep valid surrogate pairs, escape everything that needs it. -/
def jsonQuote : JsStr → JsStr
  | [] => []
  | [c] => jsonEsc c
  | c :: c2 :: rest2 =>
    if 0xD800 ≤ c ∧ c ≤ 0xDBFF ∧ 0xDC00 ≤ c2 ∧ c2 ≤ 0xDFFF then
      c :: c2 :: jsonQuote rest2
    else jsonEsc c ++ jsonQuote (c2 :: rest2)

/-- Decimal digit units of a natural number (JSON number output for the
`createdAt` timestamp). -/
def decDigits (n : Nat) : List Nat := (Nat.toDigits 10 n).map Char.toNat

/-- `JSON.stringify({id, name, email, createdAt})` with the property
order of the source object literal. -/
def userJson (id name email : JsStr) (ts : Nat) : JsStr :=
  lit "\x7b\"id\":\"" ++ jsonQuote id ++ lit "\",\"name\":\"" ++ jsonQuote name
    ++ lit "\",\"email\":\"" ++ jsonQuote email ++ lit "\",\"createdAt\":"
    ++ decDigits ts ++ lit "\x7d"

/-- `Buffer.writeUInt32BE` output bytes. -/
def be32 (n : Nat) : List Nat :=
  [n / 0x1000000 % 256, n / 0x10000 % 256, n / 0x100 % 256, n % 256]

/-- Byte of the log at an offset; a read past end-of-file leaves the
zero-filled destination buffer untouched, hence default 0. -/
def byteAt (log : List Nat) (i : Nat) : Nat := log.getD i 0

/-- `readUInt32BE` of the 4 bytes at `p`. -/
def readU32 (log : List Nat) (p : Nat) : Nat :=
  byteAt log p * 0x1000000 + byteAt log (p + 1) * 0x10000
    + byteAt log (p + 2) * 0x100 + byteAt log (p + 3)

/-- Bytes held by a zero-filled buffer of length `len` after
`fs.readSync` from offset `off`: the available bytes, zero-padded. -/
def readBuf (log : List Nat) (off len : Nat) : List Nat :=
  (log.drop off).take len
    ++ List.replicate (len - ((log.drop off).take len).length) 0

/-- The state the engine owns: the log file bytes and the in-memory
index.  The snapshot file always holds `toArray` of the index
(`saveIndex` runs after every mutation), so it is not tracked
separately. -/
structure Db where
  log : List Nat
  tree : Avl JsStr
deriving DecidableEq

/-- The empty store (`fs.writeFileSync(DB_FILENAME, "")` with a fresh
index). -/
def db0 : Db := { log := [], tree := Avl.nil }

/-- Common write path of `insertUser` and `seed`: frame `data` with a
4-byte big-endian prefix over `data.length` (the code-unit count),
append at end of file, and insert `(id, anchor)` into the index.
`writeUInt32BE` throws outside `[0, 2^32)`, aborting the operation with
no state change, modelled by `none`. -/
def appendRecord (db : Db) (id : JsStr) (data : JsStr) : Option Db :=
  if data.length < 0x100000000 then
    some { log := db.log ++ (be32 data.length ++ utf8OfUnits data),
           tree := insertT db.tree id db.log.length }
  else none

/-- The payload string written for one user:
`JSON.stringify(user) + "\n"`. -/
def userData (id name email : JsStr) (ts : Nat) : JsStr :=
  userJson id name email ts ++ [10]

/-- `insertUser(name, email)`; the minted `crypto.randomUUID()` and the
`Date.now()` value enter as parameters. -/
def insertUser (db : Db) (id name email : JsStr) (ts : Nat) : Option Db :=
  appendRecord db id (userData id name email ts)

/-- One iteration of `seed(count)`: the synthetic record for index `i`. -/
def seedOne (db : Db) (id : JsStr) (i ts : Nat) : Option Db :=
  appendRecord db id
    (userData id (lit "User" ++ decDigits i) (lit "user" ++ decDigits i ++ lit "@gmail.com") ts)

/-- `deleteUser(id)`: report "not found" and leave everything untouched
when the key is absent; otherwise remove the index entry.  The log is
never modified. -/
def deleteUser (db : Db) (id : JsStr) : Db × Bool :=
  match findFilePosition db.tree id with
  | none => (db, false)
  | some _ => ({ log := db.log, tree := deleteT db.tree id }, true)

/-- `findById(id)`: translate the key to an anchor, read the 4-byte
length there, then that many payload bytes.  Returns the raw buffer
bytes handed to `JSON.parse`. -/
def findById (db : Db) (id : JsStr) : Option (List Nat) :=
  match findFilePosition db.tree id with
  | none => none
  | some pos => some (readBuf db.log (pos + 4) (readU32 db.log pos))

/-- The index entries `findByPage` selects: `parseInt(x) || 1` coerces
only a zero (or unparsable) page to 1, then `offset = (p - 1) * 20`. -/
def findByPageEntries (t : Avl JsStr) (n : Int) : List (JsStr × Nat) :=
  let p := if n = 0 then 1 else n
  getRange t ((p - 1) * 20) 20

/-- `findByPage(n)`: the selected entries, each resolved to its frame
payload bytes; an empty selection returns early with no file access. -/
def findByPage (db : Db) (n : Int) : List (List Nat) :=
  let entries := findByPageEntries db.tree n
  if entries = [] then []
  else entries.map (fun e => readBuf db.log (e.2 + 4) (readU32 db.log e.2))

/-- The loop of `rebuildIndex`: for each non-empty line, insert the
captured id at the running byte offset, then advance by
`Buffer.byteLength(line + "\n")`.  An empty line is skipped without
advancing, as in the source. -/
def rebuildGo : List JsStr → Nat → Avl JsStr → Avl JsStr
  | [], _, t => t
  | line :: rest, pos, t =>
    if line.isEmpty then rebuildGo rest pos t
    else
      rebuildGo rest (pos + (utf8OfUnits (line ++ [10])).length)
        (match findId line with
         | some id => insertT t id pos
         | none => t)

/-- `rebuildIndex()` on a cold start without a snapshot: decode the log
as UTF-8 text, split into lines, and scan. -/
def rebuildIndex (log : List Nat) : Avl JsStr :=
  rebuildGo (splitNl (unitsOfBytes log)) 0 Avl.nil

/-- A well-formed frame reference: the 4 length bytes are inside the
log, decode to a positive `L`, and `L` payload bytes follow. -/
def frameOk (log : List Nat) (p : Nat) : Prop :=
  p + 4 ≤ log.length ∧ 0 < readU32 log p ∧ p + 4 + readU32 log p ≤ log.length

instance (log : List Nat) (p : Nat) : Decidable (frameOk log p) := by
  unfold frameOk; infer_instance



/-! ### Engine invariants -/

theorem utf8Char_pos (c : Nat) : 0 < (utf8Char c).length := by
  unfold utf8Char; split_ifs <;> simp

theorem utf8Char_big (c : Nat) (h : 0x10000 ≤ c) : (utf8Char c).length = 4 := by
  unfold utf8Char
  rw [if_neg (by omega), if_neg (by omega), if_neg (by omega)]
  rfl

/-- The UTF-8 encoding of a code-unit sequence has at least one byte per
unit. -/
theorem utf8OfUnits_ge : ∀ (n : Nat) (us : JsStr), us.length ≤ n →
    us.length ≤ (utf8OfUnits us).length := by
  intro n
  induction n with
  | zero =>
    intro us h
    have : us = [] := List.eq_nil_of_length_eq_zero (by omega)
    subst this
    simp [utf8OfUnits]
  | succ m ih =>
    intro us h
    match us with
    | [] => simp [utf8OfUnits]
    | [u] =>
      simp only [utf8OfUnits, List.length_singleton]
      split
      · exact utf8Char_pos _
      · exact utf8Char_pos _
    | u :: u2 :: rest2 =>
      have hr2 : rest2.length ≤ m := by
        simp only [List.length_cons] at h; omega
      have hr1 : (u2 :: rest2).length ≤ m := by
        simp only [List.length_cons] at h ⊢; omega
      simp only [utf8OfUnits, List.length_cons]
      split
      · split
        · have h4 := utf8Char_big (0x10000 + (u - 0xD800) * 0x400 + (u2 - 0xDC00))
            (by omega)
          have h5 := ih rest2 hr2
          simp only [List.length_append, h4]
          omega
        · have h4 := utf8Char_pos 0xFFFD
          have h5 := ih (u2 :: rest2) hr1
          simp only [List.length_append, List.length_cons] at h5 ⊢
          omega
      · split
        · have h4 := utf8Char_pos 0xFFFD
          have h5 := ih (u2 :: rest2) hr1
          simp only [List.length_append, List.length_cons] at h5 ⊢
          omega
        · have h4 := utf8Char_pos u
          have h5 := ih (u2 :: rest2) hr1
          simp only [List.length_append, List.length_cons] at h5 ⊢
          omega

theorem be32_length (n : Nat) : (be32 n).length = 4 := rfl

theorem readU32_be32 (log rest : List Nat) (n : Nat) (h : n < 0x100000000) :
    readU32 (log ++ (be32 n ++ rest)) log.length = n := by
  have e0 : (log ++ (be32 n ++ rest)).getD log.length 0 = n / 0x1000000 % 256 := by
    rw [List.getD_append_right _ _ _ _ (le_refl _)]
    simp [be32]
  have e1 : (log ++ (be32 n ++ rest)).getD (log.length + 1) 0 = n / 0x10000 % 256 := by
    rw [List.getD_append_right _ _ _ _ (by omega)]
    simp [be32, Nat.add_sub_cancel_left]
  have e2 : (log ++ (be32 n ++ rest)).getD (log.length + 2) 0 = n / 0x100 % 256 := by
    rw [List.getD_append_right _ _ _ _ (by omega)]
    simp [be32, Nat.add_sub_cancel_left]
  have e3 : (log ++ (be32 n ++ rest)).getD (log.length + 3) 0 = n % 256 := by
    rw [List.getD_append_right _ _ _ _ (by omega)]
    simp [be32, Nat.add_sub_cancel_left]
  unfold readU32 byteAt
  rw [e0, e1, e2, e3]
  omega

theorem readU32_extend (log ext : List Nat) (p : Nat) (h : p + 4 ≤ log.length) :
    readU32 (log ++ ext) p = readU32 log p := by
  unfold readU32 byteAt
  rw [List.getD_append _ _ _ _ (by omega), List.getD_append _ _ _ _ (by omega),
    List.getD_append _ _ _ _ (by omega), List.getD_append _ _ _ _ (by omega)]

theorem frameOk_append (log ext : List Nat) (p : Nat) (h : frameOk log p) :
    frameOk (log ++ ext) p := by
  obtain ⟨h1, h2, h3⟩ := h
  refine ⟨?_, ?_, ?_⟩
  · simp only [List.length_append]; omega
  · rw [readU32_extend _ _ _ h1]; exact h2
  · rw [readU32_extend _ _ _ h1]; simp only [List.length_append]; omega

/-- The state invariant the engine maintains: a well-formed index whose
every entry anchors a well-formed frame in the log. -/
def DbInv (db : Db) : Prop :=
  Avl.invB db.tree = true ∧ ∀ e ∈ Avl.toArray db.tree, frameOk db.log e.2

theorem userData_pos (id name email : JsStr) (ts : Nat) :
    0 < (userData id name email ts).length := by
  simp [userData]

theorem appendRecord_inv {db db2 : Db} {id data : JsStr}
    (hinv : DbInv db) (hpos : 0 < data.length)
    (h : appendRecord db id data = some db2) : DbInv db2 := by
  unfold appendRecord at h
  split at h
  case isTrue hlen =>
    injection h with h
    subst h
    obtain ⟨hi, hf⟩ := hinv
    refine ⟨Avl.invB_insertT _ _ hi, ?_⟩
    intro e he
    rw [Avl.toArray_insertT _ _ hi] at he
    rcases Avl.mem_linsert he with he | rfl
    · exact frameOk_append _ _ _ (hf e he)
    · have hb := utf8OfUnits_ge data.length data (le_refl _)
      refine ⟨?_, ?_, ?_⟩
      · simp only [List.length_append, be32_length]; omega
      · rw [readU32_be32 _ _ _ hlen]; omega
      · rw [readU32_be32 _ _ _ hlen]
        simp only [List.length_append, be32_length]
        omega
  case isFalse => cases h

theorem deleteUser_inv {db : Db} (id : JsStr) (hinv : DbInv db) :
    DbInv (deleteUser db id).1 := by
  obtain ⟨hi, hf⟩ := hinv
  unfold deleteUser
  cases hfp : Avl.findFilePosition db.tree id with
  | none => exact ⟨hi, hf⟩
  | some p =>
    refine ⟨Avl.invB_deleteT _ hi, ?_⟩
    intro e he
    rw [Avl.toArray_deleteT _ hi] at he
    exact hf e (Avl.mem_lremove he)

/-- One engine transition: user insert, seed record, user delete, or a
restart that rehydrates the index from the snapshot. -/
inductive DbOp where
  | insU (id name email : JsStr) (ts : Nat) : DbOp
  | seedU (id : JsStr) (i ts : Nat) : DbOp
  | delU (id : JsStr) : DbOp
  | snap : DbOp

/-- Apply one engine transition; a throwing write leaves the state
unchanged. -/
def applyOp (db : Db) : DbOp → Db
  | DbOp.insU id name email ts => (insertUser db id name email ts).getD db
  | DbOp.seedU id i ts => (seedOne db id i ts).getD db
  | DbOp.delU id => (deleteUser db id).1
  | DbOp.snap => { log := db.log, tree := Avl.toTree (Avl.toArray db.tree) }

/-- Run a sequence of engine transitions from the empty store. -/
def runOps (ops : List DbOp) : Db := ops.foldl applyOp db0

theorem applyOp_inv {db : Db} (op : DbOp) (hinv : DbInv db) :
    DbInv (applyOp db op) := by
  cases op with
  | insU id name email ts =>
    show DbInv ((insertUser db id name email ts).getD db)
    cases hio : insertUser db id name email ts with
    | none => exact hinv
    | some db2 => exact appendRecord_inv hinv (userData_pos _ _ _ _) hio
  | seedU id i ts =>
    show DbInv ((seedOne db id i ts).getD db)
    cases hio : seedOne db id i ts with
    | none => exact hinv
    | some db2 => exact appendRecord_inv hinv (userData_pos _ _ _ _) hio
  | delU id => exact deleteUser_inv id hinv
  | snap =>
    obtain ⟨hi, hf⟩ := hinv
    obtain ⟨hi2, hta⟩ := Avl.toTree_roundtrip db.tree hi
    show DbInv { log := db.log, tree := Avl.toTree (Avl.toArray db.tree) }
    refine ⟨hi2, ?_⟩
    intro e he
    rw [show ({ log := db.log, tree := Avl.toTree (Avl.toArray db.tree) } : Db).tree
        = Avl.toTree (Avl.toArray db.tree) from rfl, hta] at he
    exact hf e he

theorem foldl_ops_inv (ops : List DbOp) :
    ∀ (db : Db), DbInv db → DbInv (ops.foldl applyOp db) := by
  induction ops with
  | nil => intro db h; exact h
  | cons op ops ih =>
    intro db h
    exact ih (applyOp db op) (applyOp_inv op h)

theorem runOps_inv (ops : List DbOp) : DbInv (runOps ops) :=
  foldl_ops_inv ops db0 ⟨rfl, by intro e he; simp [Avl.toArray, db0] at he⟩


/-! ## The claims -/

open Avl

/-- C1 (amended): for every state of the store reachable by startup
without log-rebuild (fresh, seeded, or snapshot rehydrate), insert and
delete operations, every key present in the index maps to an anchor
offset `p` at which the log holds a well-formed frame: the 4 bytes at
`p` decode big-endian to a length `L > 0` and the following `L` bytes
are present in the log. -/
theorem claim_C1 (ops : List DbOp) (k : JsStr) (p : Nat)
    (hp : findFilePosition (runOps ops).tree k = some p) :
    frameOk (runOps ops).log p := by
  obtain ⟨hi, hf⟩ := runOps_inv ops
  rcases invB_iff.mp hi with ⟨g, b, bs⟩
  rw [findFilePosition_eq_lookupA _ _ bs] at hp
  exact hf (k, p) (lookupA_mem hp)

theorem claim_C1_witness :
    findFilePosition (runOps [DbOp.insU (lit "a") (lit "n") (lit "e") 1]).tree
        (lit "a") = some 0 ∧
    frameOk (runOps [DbOp.insU (lit "a") (lit "n") (lit "e") 1]).log 0 :=
  ⟨by decide, claim_C1 [DbOp.insU (lit "a") (lit "n") (lit "e") 1] (lit "a") 0 (by decide)⟩

/-- A name of 90 ASCII characters, making the first frame longer than
127 bytes so that its length-prefix byte is not valid UTF-8. -/
def c1Name : JsStr := List.replicate 90 120

/-- Two user inserts: a long first record, then a short one. -/
def c1Ops : List DbOp :=
  [DbOp.insU (lit "a") c1Name (lit "e") 1, DbOp.insU (lit "b") (lit "n") (lit "e") 1]

/-- The log bytes written by the two inserts. -/
def c1Log : List Nat := (runOps c1Ops).log

/-- C1 as stated is false: after a rebuild from this log, key `b` is
indexed at offset 143 while its frame anchor is 141 (the first frame has
length prefix 137 ≥ 128, whose byte decodes to a replacement character
that re-encodes to 3 bytes), and at offset 143 the bytes decode to a
length of 3\,177\,250 which does not fit in the 193-byte log. -/
theorem claim_C1_counterexample :
    findFilePosition (rebuildIndex c1Log) (lit "b") = some 143 ∧
    ¬ frameOk c1Log 143 ∧ c1Log.length = 193 := by decide

/-- The store after one insert whose name holds two U+00E9 characters
(each one UTF-16 code unit, two UTF-8 bytes). -/
def c2Db : Db := (insertUser db0 (lit "a") [233, 233] (lit "e") 1).getD db0

/-- C2 is violated by the code: the 4-byte prefix of the appended frame
carries `data.length`, the UTF-16 code-unit count (49), while the bytes
written after it are the UTF-8 encoding (51 bytes).  The prefix does not
equal the number of payload bytes for this non-ASCII payload. -/
theorem claim_C2 :
    readU32 c2Db.log 0 = (userData (lit "a") [233, 233] (lit "e") 1).length ∧
    c2Db.log.length = 4 + (utf8OfUnits (userData (lit "a") [233, 233] (lit "e") 1)).length ∧
    (userData (lit "a") [233, 233] (lit "e") 1).length = 49 ∧
    (utf8OfUnits (userData (lit "a") [233, 233] (lit "e") 1)).length = 51 := by decide

/-- C3: on a tree with correct stored sizes and search-tree ordering,
the positional lookup returns exactly the entry at that position of the
in-order enumeration (which is strictly ascending by key), and
`getRange` returns the contiguous slice, empty from `tsize t` on. -/
theorem claim_C3 {K : Type} [LinearOrder K] (t : Avl K)
    (hg : goodB t = true) (hb : bstB t = true) :
    (∀ i : Nat, (findNodeByIndex t (i : Int)).bind rootPair = (toArray t).get? i) ∧
    (toArray t).Pairwise (fun a b => a.1 < b.1) ∧
    (∀ off lim : Nat, getRange t (off : Int) lim = ((toArray t).drop off).take lim) ∧
    (∀ off lim : Nat, tsize t ≤ off → getRange t (off : Int) lim = []) := by
  refine ⟨fun i => findNodeByIndex_eq t i hg, bstB_iff_pairwise.mp hb,
    fun off lim => getRange_eq t hg lim off, fun off lim h => ?_⟩
  rw [getRange_eq t hg lim off]
  have : (toArray t).drop off = [] := by
    rw [List.drop_eq_nil_iff_le, toArray_length]
    exact h
  rw [this]
  simp

/-- A concrete index for the C3 witness. -/
def c3w : Avl Nat := insertT (insertT (insertT Avl.nil 2 5) 1 7) 3 9

theorem claim_C3_witness :
    (goodB c3w = true ∧ bstB c3w = true) ∧
    ((∀ i : Nat, (findNodeByIndex c3w (i : Int)).bind rootPair = (toArray c3w).get? i) ∧
     (toArray c3w).Pairwise (fun a b => a.1 < b.1) ∧
     (∀ off lim : Nat, getRange c3w (off : Int) lim = ((toArray c3w).drop off).take lim) ∧
     (∀ off lim : Nat, tsize c3w ≤ off → getRange c3w (off : Int) lim = [])) :=
  ⟨⟨by decide, by decide⟩, claim_C3 c3w (by decide) (by decide)⟩

/-- C4: after every sequence of index insert and delete operations
starting from the empty tree, every node satisfies the balance
invariant on true heights and every stored `size` field equals
`1 + size(left) + size(right)`. -/
theorem claim_C4 {K : Type} [LinearOrder K] (ops : List (TreeOp K)) :
    balancedB (runTreeOps ops) = true ∧ sizeOkB (runTreeOps ops) = true := by
  have h := runTreeOps_inv ops
  rcases invB_iff.mp h with ⟨g, b, _⟩
  exact ⟨b, sizeOkB_of_goodB g⟩

/-- The store after one insert whose name holds two U+00E9 characters. -/
def c5Db : Db := (insertUser db0 (lit "a") [233, 233] (lit "e") 1).getD db0

/-- C5 is violated by the code: an immediately following get finds the
record but reads only `L = 49` bytes of the 51-byte payload, returning
the JSON text truncated before the closing brace (it is the byte list of
the serialized object with its last byte dropped, not the payload), so
`JSON.parse` cannot return a record whose body equals the payload. -/
theorem claim_C5 :
    (findById c5Db (lit "a")).isSome = true ∧
    findById c5Db (lit "a")
      ≠ some (utf8OfUnits (userData (lit "a") [233, 233] (lit "e") 1)) ∧
    findById c5Db (lit "a")
      ≠ some (utf8OfUnits (userJson (lit "a") [233, 233] (lit "e") 1)) ∧
    findById c5Db (lit "a")
      = some (utf8OfUnits (userJson (lit "a") [233, 233] (lit "e") 1)).dropLast := by
  decide

/-- The store after inserting one user under key `a`. -/
def c6Db : Db := (insertUser db0 (lit "a") (lit "n") (lit "e") 1).getD db0

/-- C6 as stated is false: for the negative page argument `-1` the page
operation returns the empty list, not the first page. -/
theorem claim_C6_counterexample :
    findByPage c6Db (-1) = [] ∧ findByPage c6Db 1 ≠ [] ∧
    findByPage c6Db (-1) ≠ findByPage c6Db 1 := by decide

/-- C6 (amended): only the falsy page argument 0 is coerced to 1, so
`page(0)` behaves exactly as `page(1)` (offset 0, first up-to-20 entries
in ascending key order); every negative page argument yields a negative
offset and returns the empty list. -/
theorem claim_C6 (db : Db) (n : Int) (hn : n < 0) :
    findByPage db 0 = findByPage db 1 ∧
    (invB db.tree = true → findByPageEntries db.tree 0 = (toArray db.tree).take 20) ∧
    findByPage db n = [] := by
  refine ⟨rfl, ?_, ?_⟩
  · intro hi
    rcases invB_iff.mp hi with ⟨g, _, _⟩
    show getRange db.tree ((1 - 1) * 20) 20 = (toArray db.tree).take 20
    have h0 : ((1 : Int) - 1) * 20 = ((0 : Nat) : Int) := by decide
    rw [h0, getRange_eq db.tree g 20 0]
    rfl
  · have hne : ¬ (n = 0) := by omega
    show (if findByPageEntries db.tree n = [] then []
          else (findByPageEntries db.tree n).map
            (fun e => readBuf db.log (e.2 + 4) (readU32 db.log e.2))) = []
    have he : findByPageEntries db.tree n = [] := by
      show getRange db.tree (((if n = 0 then 1 else n) - 1) * 20) 20 = []
      rw [if_neg hne]
      exact getRange_neg _ _ _ (by omega)
    rw [he]
    rfl

theorem claim_C6_witness :
    (-1 : Int) < 0 ∧
    (findByPage c6Db 0 = findByPage c6Db 1 ∧
     (invB c6Db.tree = true → findByPageEntries c6Db.tree 0 = (toArray c6Db.tree).take 20) ∧
     findByPage c6Db (-1) = []) :=
  ⟨by decide, claim_C6 c6Db (-1) (by decide)⟩

/-- C7: serializing an index in order and bulk-loading the list into a
fresh tree yields an index with the same point lookups, the same
positional lookups, and the same in-order enumeration. -/
theorem claim_C7 {K : Type} [LinearOrder K] (t : Avl K) (hi : invB t = true) :
    (∀ k : K, findFilePosition (toTree (toArray t)) k = findFilePosition t k) ∧
    (∀ i : Int, (findNodeByIndex (toTree (toArray t)) i).bind rootPair
        = (findNodeByIndex t i).bind rootPair) ∧
    toArray (toTree (toArray t)) = toArray t := by
  obtain ⟨hi2, hta⟩ := toTree_roundtrip t hi
  rcases invB_iff.mp hi with ⟨g, b, bs⟩
  rcases invB_iff.mp hi2 with ⟨g2, b2, bs2⟩
  refine ⟨fun k => ?_, fun i => ?_, hta⟩
  · rw [findFilePosition_eq_lookupA _ _ bs2, findFilePosition_eq_lookupA _ _ bs, hta]
  · cases i with
    | ofNat m =>
      rw [show (Int.ofNat m) = ((m : Nat) : Int) from rfl,
        findNodeByIndex_eq _ m g2, findNodeByIndex_eq _ m g, hta]
    | negSucc m =>
      rw [findNodeByIndex_neg _ _ (Int.negSucc_lt_zero m),
        findNodeByIndex_neg _ _ (Int.negSucc_lt_zero m)]

/-- A concrete index for the C7 witness. -/
def c7w : Avl Nat := insertT (insertT (insertT Avl.nil 4 1) 2 2) 9 3

theorem claim_C7_witness :
    invB c7w = true ∧
    ((∀ k : Nat, findFilePosition (toTree (toArray c7w)) k = findFilePosition c7w k) ∧
     (∀ i : Int, (findNodeByIndex (toTree (toArray c7w)) i).bind rootPair
        = (findNodeByIndex c7w i).bind rootPair) ∧
     toArray (toTree (toArray c7w)) = toArray c7w) :=
  ⟨by decide, claim_C7 c7w (by decide)⟩

/-- C8: deleting a present key succeeds; an immediately repeated delete
of the same key reports "not found" and leaves the store (log and every
aspect of the index) exactly as after the first delete. -/
theorem claim_C8 (db : Db) (k : JsStr) (p : Nat)
    (hi : invB db.tree = true) (hp : findFilePosition db.tree k = some p) :
    (deleteUser db k).2 = true ∧
    (deleteUser (deleteUser db k).1 k).2 = false ∧
    (deleteUser (deleteUser db k).1 k).1 = (deleteUser db k).1 := by
  rcases invB_iff.mp hi with ⟨g, b, bs⟩
  have e1 : deleteUser db k = ({ log := db.log, tree := deleteT db.tree k }, true) := by
    unfold deleteUser
    rw [hp]
  have hbs2 : bstB (deleteT db.tree k) = true := bstB_deleteGo k g b bs
  have hnone : findFilePosition (deleteT db.tree k) k = none := by
    rw [findFilePosition_eq_lookupA _ _ hbs2, toArray_deleteT _ hi]
    exact lookupA_lremove_self (bstB_iff_pairwise.mp bs)
  have e2 : deleteUser { log := db.log, tree := deleteT db.tree k } k
      = ({ log := db.log, tree := deleteT db.tree k }, false) := by
    unfold deleteUser
    rw [show ({ log := db.log, tree := deleteT db.tree k } : Db).tree
        = deleteT db.tree k from rfl, hnone]
  rw [e1, e2]
  exact ⟨rfl, rfl, rfl⟩

/-- The store of the C8 witness, holding one record under key `a`. -/
def c8Db : Db := (insertUser db0 (lit "a") (lit "n") (lit "e") 1).getD db0

theorem claim_C8_witness :
    (invB c8Db.tree = true ∧ findFilePosition c8Db.tree (lit "a") = some 0) ∧
    ((deleteUser c8Db (lit "a")).2 = true ∧
     (deleteUser (deleteUser c8Db (lit "a")).1 (lit "a")).2 = false ∧
     (deleteUser (deleteUser c8Db (lit "a")).1 (lit "a")).1 = (deleteUser c8Db (lit "a")).1) :=
  ⟨⟨by decide, by decide⟩, claim_C8 c8Db (lit "a") 0 (by decide) (by decide)⟩

/-- C9: for every tree, every negative positional offset and every
limit, `getRange` returns the empty list (the first positional lookup
already returns null); consequently `findByPage` on a negative integer
argument returns an empty record list. -/
theorem claim_C9 {K : Type} [LinearOrder K] (t : Avl K) (off : Int) (lim : Nat)
    (hoff : off < 0) (db : Db) (n : Int) (hn : n < 0) :
    getRange t off lim = [] ∧ findNodeByIndex t off = none ∧
    findByPageEntries db.tree n = [] ∧ findByPage db n = [] := by
  refine ⟨getRange_neg t off lim hoff, findNodeByIndex_neg t off hoff, ?_, ?_⟩
  · show getRange db.tree (((if n = 0 then 1 else n) - 1) * 20) 20 = []
    rw [if_neg (by omega : ¬ (n = 0))]
    exact getRange_neg _ _ _ (by omega)
  · show (if findByPageEntries db.tree n = [] then []
          else (findByPageEntries db.tree n).map
            (fun e => readBuf db.log (e.2 + 4) (readU32 db.log e.2))) = []
    have he : findByPageEntries db.tree n = [] := by
      show getRange db.tree (((if n = 0 then 1 else n) - 1) * 20) 20 = []
      rw [if_neg (by omega : ¬ (n = 0))]
      exact getRange_neg _ _ _ (by omega)
    rw [he]
    rfl

theorem claim_C9_witness :
    ((-3 : Int) < 0 ∧ (-1 : Int) < 0) ∧
    (getRange c3w (-3) 20 = [] ∧ findNodeByIndex c3w (-3) = none ∧
     findByPageEntries c6Db.tree (-1) = [] ∧ findByPage c6Db (-1) = []) := by
  refine ⟨⟨by decide, by decide⟩, ?_⟩
  exact claim_C9 c3w (-3) 20 (by decide) c6Db (-1) (by decide)

/-- C10: inserting a key that is already present rewrites only the
stored file position of the node holding that key: the result is the
pure in-place update, the position-erased skeleton (shape, keys,
heights, sizes) is unchanged, every other key still looks up to its old
offset, and the updated key looks up to the new offset. -/
theorem claim_C10 {K : Type} [LinearOrder K] (t : Avl K) (k : K) (q p : Nat)
    (hg : goodB t = true) (hb : balancedB t = true)
    (hp : findFilePosition t k = some p) :
    insertT t k q = updatePos t k q ∧
    stripPos (insertT t k q) = stripPos t ∧
    (∀ k2, k2 ≠ k → findFilePosition (insertT t k q) k2 = findFilePosition t k2) ∧
    findFilePosition (insertT t k q) k = some q := by
  have hne : findFilePosition t k ≠ none := by rw [hp]; simp
  have e : insertT t k q = updatePos t k q := insertGo_existing t k q hg hb hne
  refine ⟨e, ?_, fun k2 h2 => ?_, ?_⟩
  · rw [e]
    exact stripPos_updatePos t k q
  · rw [e]
    exact findFilePosition_updatePos_other t k k2 q h2
  · rw [e]
    exact findFilePosition_updatePos_self t k q hne

theorem claim_C10_witness :
    (goodB c3w = true ∧ balancedB c3w = true ∧
      findFilePosition c3w 2 = some 5) ∧
    (insertT c3w 2 11 = updatePos c3w 2 11 ∧
     stripPos (insertT c3w 2 11) = stripPos c3w ∧
     (∀ k2, k2 ≠ 2 → findFilePosition (insertT c3w 2 11) k2 = findFilePosition c3w k2) ∧
     findFilePosition (insertT c3w 2 11) 2 = some 11) :=
  ⟨⟨by decide, by decide, by decide⟩,
    claim_C10 c3w 2 11 5 (by decide) (by decide) (by decide)⟩

end GigaDb

